/-
Verification of the SMT-LIB v2 front-end parser (src/parser/bzlasmt2.c)
against its natural-language specification.

The development shallowly embeds the parts of the parser the claims are
about: the term-reduction rules of close_term, the indexed-operator
parsing, the lexer's numeral branch, the end-of-parse logic inference,
and the scoped hash-chained symbol table (hashing, lookup, insertion
with table doubling, removal, scope closing).  Machine integers are
modelled as Nat with explicit reductions modulo 2^32 / 2^64 where the C
code relies on fixed-width arithmetic.  Fallible code returns Except or
Option; a C assert is modelled as a failure outcome.
-/
import Mathlib

namespace BzlaSMT2

/-! ### Small string helpers

Error messages are built without apostrophe characters inside string
literals; `sq` is the single-quote character used by perr_smt2 format
strings. -/

/-- The single-quote character (ASCII 39) used in parser error messages. -/
def sq : String := String.singleton (Char.ofNat 39)

/-- Wrap a string in single quotes, as the C format strings do. -/
def mkq (s : String) : String := sq ++ s ++ sq

/-! ### Backend terms and sorts

The parser drives the solver backend through term constructors
(boolector_eq, boolector_and, boolector_bv_slice, boolector_roli, ...).
We model backend nodes as a small AST carrying enough sort information
for the parser's checks: boolector_is_array, boolector_is_fun,
boolector_is_const, boolector_bv_get_width. -/

inductive BSort where
  | bv (w : Nat)
  | arr (iw ew : Nat)
  | fn
  deriving DecidableEq, Repr

inductive BTerm where
  | var (n : Nat) (s : BSort)
  | constBV (bits : List Bool)
  | eq (a b : BTerm)
  | ne (a b : BTerm)
  | band (a b : BTerm)
  | slice (t : BTerm) (hi lo : Nat)
  | roli (t : BTerm) (k : Nat)
  | rori (t : BTerm) (k : Nat)
  deriving DecidableEq, Repr

/-- Sort of a backend node (boolector_get_sort). -/
def sortOf : BTerm → BSort
  | .var _ s => s
  | .constBV bits => .bv bits.length
  | .eq _ _ => .bv 1
  | .ne _ _ => .bv 1
  | .band _ _ => .bv 1
  | .slice _ hi lo => .bv (hi + 1 - lo)
  | .roli t _ => sortOf t
  | .rori t _ => sortOf t

/-- boolector_is_array. -/
def isArrayT (t : BTerm) : Bool :=
  match sortOf t with
  | .arr _ _ => true
  | _ => false

/-- boolector_is_fun. -/
def isFunT (t : BTerm) : Bool :=
  match sortOf t with
  | .fn => true
  | _ => false

/-- boolector_bv_get_width: bit-width of a bit-vector node; for an array
node it returns the element width. -/
def bvWidth (t : BTerm) : Nat :=
  match sortOf t with
  | .bv w => w
  | .arr _ ew => ew
  | .fn => 0

/-- boolector_array_get_index_width. -/
def arrIdxWidth (t : BTerm) : Nat :=
  match sortOf t with
  | .arr iw _ => iw
  | _ => 0

/-- boolector_is_const: the node is a bit-vector constant. -/
def isConstT (t : BTerm) : Bool :=
  match t with
  | .constBV _ => true
  | _ => false

/-! ### check_nargs_smt2, check_not_array_or_uf_args_smt2,
check_arg_sorts_match_smt2 -/

/-- check_nargs_smt2: arity check with distinct messages for missing
versus too many arguments.  `actual` and `required` are the C int32
arguments; in all uses both are small non-negative counts. -/
def checkNargs (op : String) (actual required : Nat) : Except String Unit :=
  if actual = required then .ok ()
  else if actual + 1 = required then
    .error ("one argument to " ++ mkq op ++ " missing")
  else if actual < required then
    .error (toString (required - actual) ++ " arguments to " ++ mkq op ++ " missing")
  else if actual = required + 1 then
    .error (mkq op ++ " has one argument too much")
  else
    .error (mkq op ++ " has " ++ toString (actual - required) ++ " arguments too much")

/-- Loop body of check_not_array_or_uf_args_smt2 over arguments 1..nargs,
carrying the 1-based position for the error message. -/
def checkNotArrayOrUfFrom (op : String) (i : Nat) : List BTerm → Except String Unit
  | [] => .ok ()
  | t :: rest =>
    if isArrayT t then
      .error ("argument " ++ toString i ++ " of " ++ mkq op ++ " is an array")
    else if isFunT t then
      .error ("argument " ++ toString i ++ " of " ++ mkq op ++ " is a function")
    else checkNotArrayOrUfFrom op (i + 1) rest

/-- check_not_array_or_uf_args_smt2. -/
def checkNotArrayOrUfArgs (op : String) (args : List BTerm) : Except String Unit :=
  checkNotArrayOrUfFrom op 1 args

/-- Array branch of check_arg_sorts_match_smt2: all further arguments
must be arrays of the same element and index widths as the first. -/
def checkSortsArrayFrom (op : String) (width domain i : Nat) :
    List BTerm → Except String Unit
  | [] => .ok ()
  | t :: rest =>
    if !isArrayT t then
      .error ("first argument of " ++ mkq op ++ " is an array but argument "
        ++ toString i ++ " is not")
    else if bvWidth t ≠ width then
      .error ("first argument of " ++ mkq op ++ " is an array of bit-vectors of width "
        ++ toString width ++ " but argument " ++ toString i
        ++ " is an array of bit-vectors of width " ++ toString (bvWidth t))
    else if arrIdxWidth t ≠ domain then
      .error ("first argument of " ++ mkq op ++ " is an array with index bit-vectors of width "
        ++ toString domain ++ " but argument " ++ toString i
        ++ " is an array with index bit-vectors of width " ++ toString (arrIdxWidth t))
    else checkSortsArrayFrom op width domain (i + 1) rest

/-- Function branch of check_arg_sorts_match_smt2. -/
def checkSortsFunFrom (op : String) (s1 : BSort) (i : Nat) :
    List BTerm → Except String Unit
  | [] => .ok ()
  | t :: rest =>
    if !isFunT t then
      .error ("first argument of " ++ mkq op ++ " is a function but argument "
        ++ toString i ++ " not")
    else if sortOf t ≠ s1 then
      .error ("sort of argument " ++ toString i
        ++ " does not match with sort of first argument of " ++ mkq op)
    else checkSortsFunFrom op s1 (i + 1) rest

/-- Scalar branch of check_arg_sorts_match_smt2: no argument may be an
array or function and all widths must equal the first argument's. -/
def checkSortsScalarFrom (op : String) (width i : Nat) :
    List BTerm → Except String Unit
  | [] => .ok ()
  | t :: rest =>
    if isArrayT t then
      .error ("argument " ++ toString i ++ " of " ++ mkq op
        ++ " is an array but first argument not")
    else if isFunT t then
      .error ("argument " ++ toString i ++ " of " ++ mkq op
        ++ " is a function but first argument not")
    else if bvWidth t ≠ width then
      .error ("first argument of " ++ mkq op ++ " is bit-vector of width "
        ++ toString width ++ " but argument " ++ toString i
        ++ " is a bit-vector of width " ++ toString (bvWidth t))
    else checkSortsScalarFrom op width (i + 1) rest

/-- check_arg_sorts_match_smt2 with offset 0: all arguments must share
the first argument's sort shape. -/
def checkArgSortsMatch (op : String) (args : List BTerm) : Except String Unit :=
  match args with
  | [] => .ok ()
  | t1 :: rest =>
    if isArrayT t1 then
      checkSortsArrayFrom op (bvWidth t1) (arrIdxWidth t1) 2 rest
    else if isFunT t1 then
      checkSortsFunFrom op (sortOf t1) 2 rest
    else
      checkSortsScalarFrom op (bvWidth t1) 2 rest

/-! ### close_term: CORE EQUAL and DISTINCT (claim C6) -/

/-- The `=` reduction loop of close_term: `exp = eq(a1,a2)`, then for
i = 3..nargs, `exp = and(exp, eq(a(i-1), a(i)))`.  `prev` is the
previous argument, `acc` the accumulated expression. -/
def eqChainLoop (prev acc : BTerm) : List BTerm → BTerm
  | [] => acc
  | x :: xs => eqChainLoop x (.band acc (.eq prev x)) xs

/-- close_term, case BZLA_EQUAL_TAG_SMT2. -/
def closeTermEq (args : List BTerm) : Except String BTerm :=
  match args with
  | [] => .error ("arguments to " ++ mkq "=" ++ " missing")
  | [_] => .error ("only one argument to " ++ mkq "=")
  | a1 :: a2 :: rest => do
    _ ← checkArgSortsMatch "=" args
    .ok (eqChainLoop a2 (.eq a1 a2) rest)

/-- Inner loop of the `distinct` reduction: for a fixed argument `ai`,
fold ne(ai, aj) over all later arguments `aj`, extending the optional
accumulated expression. -/
def distinctInner (ai : BTerm) (rest : List BTerm) (acc : Option BTerm) : Option BTerm :=
  rest.foldl
    (fun acc aj =>
      match acc with
      | none => some (.ne ai aj)
      | some e => some (.band e (.ne ai aj)))
    acc

/-- Outer loop of the `distinct` reduction over i = 1..nargs-1. -/
def distinctOuter : List BTerm → Option BTerm → Option BTerm
  | [], acc => acc
  | x :: xs, acc => distinctOuter xs (distinctInner x xs acc)

/-- close_term, case BZLA_DISTINCT_TAG_SMT2.  The C code asserts the
accumulated expression is non-null after the loops; with fewer than two
arguments the earlier checks have already errored, so the assert is
modelled by returning the Option produced by the loops. -/
def closeTermDistinct (args : List BTerm) : Except String (Option BTerm) :=
  match args with
  | [] => .error ("arguments to " ++ mkq "distinct" ++ " missing")
  | [_] => .error ("only one argument to " ++ mkq "distinct")
  | _ => do
    _ ← checkArgSortsMatch "distinct" args
    .ok (distinctOuter args none)

/-- Specification-side list of consecutive argument pairs (x_i, x_i+1). -/
def consecPairs (l : List BTerm) : List (BTerm × BTerm) :=
  l.zip l.tail

/-- Specification-side list of all pairs (x_i, x_j) with i < j, in
lexicographic order. -/
def allPairsLex : List BTerm → List (BTerm × BTerm)
  | [] => []
  | x :: xs => (xs.map (fun y => (x, y))) ++ allPairsLex xs

/-- Left fold of AND over a non-empty expression list (spec side). -/
def andChain (e : BTerm) (l : List BTerm) : BTerm :=
  l.foldl .band e

/-! ### close_term: BV EXTRACT (claim C4) -/

/-- Shift-time index check of parse_open_term_indexed_parametric for
`(_ extract idx0 idx1)`: after reading the two uint32 indices, error if
idx0 < idx1. -/
def parseExtractIndices (idx0 idx1 : Nat) : Except String (Nat × Nat) :=
  if idx0 < idx1 then
    .error ("first parameter " ++ mkq (toString idx0) ++ " of " ++ sq
      ++ "(_ extract" ++ sq ++ " smaller than second " ++ mkq (toString idx1))
  else .ok (idx0, idx1)

/-- close_term, case BZLA_BV_EXTRACT_TAG_SMT2: one argument, no array or
function operand, the high index must be below the operand's width;
reduces to boolector_bv_slice(t, idx0, idx1). -/
def closeTermExtract (idx0 idx1 : Nat) (args : List BTerm) : Except String BTerm := do
  _ ← checkNargs "extract" args.length 1
  _ ← checkNotArrayOrUfArgs "extract" args
  match args with
  | [t] =>
    let width := bvWidth t
    if width ≤ idx0 then
      .error ("first (high) " ++ mkq "extract" ++ " parameter " ++ toString idx0
        ++ " too large for bit-vector argument of bit-width " ++ toString width)
    else .ok (.slice t idx0 idx1)
  | _ => .error "unreachable"

/-! ### close_term: indexed rotates (claim C10) -/

/-- close_term_rotate_bv_fun for `(_ rotate_left k)` / `(_ rotate_right k)`:
one argument, no array or function operand; the rotate amount passed to
the backend is `k % width` with no upper-bound check of k itself. -/
def closeTermRotate (isLeft : Bool) (k : Nat) (args : List BTerm) :
    Except String BTerm := do
  _ ← checkNargs (if isLeft then "rotate_left" else "rotate_right") args.length 1
  _ ← checkNotArrayOrUfArgs (if isLeft then "rotate_left" else "rotate_right") args
  match args with
  | [t] =>
    let width := bvWidth t
    .ok (if isLeft then .roli t (k % width) else .rori t (k % width))
  | _ => .error "unreachable"

/-! ### close_term: Z3 ext_rotate (claim C8) -/

/-- Value of a bit-vector constant given MSB-first bits: fold of
2*acc + bit. -/
def bitsVal (bits : List Bool) : Nat :=
  bits.foldl (fun acc b => 2 * acc + (if b then 1 else 0)) 0

/-- translate_ext_rotate_smt2: the shift node's bits are converted with
bzla_bv_to_uint64 (which asserts the width is at most 64) and cast to
uint32; the code then asserts shift_width < width(exp) and calls
boolector_roli / boolector_rori with the raw shift_width, performing no
modulo reduction.  Both asserts are modelled as a `none` outcome. -/
def translateExtRotate (isLeft : Bool) (t : BTerm) (bits : List Bool) : Option BTerm :=
  if bits.length > 64 then none
  else
    let shiftWidth := bitsVal bits % 2 ^ 32
    if shiftWidth < bvWidth t then
      some (if isLeft then .roli t shiftWidth else .rori t shiftWidth)
    else none

/-- close_term, cases BZLA_BV_EXT_ROTATE_LEFT/RIGHT_TAG_SMT2: two
arguments, no array or function operand, the second argument must be a
bit-vector constant.  `.ok none` models an assertion failure inside
translate_ext_rotate_smt2. -/
def closeTermExtRotate (isLeft : Bool) (args : List BTerm) :
    Except String (Option BTerm) := do
  let opName := if isLeft then "left" else "right"
  _ ← checkNargs ("ext_rotate_" ++ opName) args.length 2
  _ ← checkNotArrayOrUfArgs ("ext_rotate_" ++ opName) args
  match args with
  | [t, s] =>
    match s with
    | .constBV bits => .ok (translateExtRotate isLeft t bits)
    | _ =>
      .error ("second argument of ext_rotate_" ++ opName
        ++ " is not a bit vector constant")
  | _ => .error "unreachable"

/-! ### `(_ bvK n)` compact constants (claim C5) -/

/-- Little-endian bits of a natural number (no trailing zeros). -/
def natBitsLE : Nat → List Bool
  | 0 => []
  | n + 1 => (decide ((n + 1) % 2 = 1)) :: natBitsLE ((n + 1) / 2)
  decreasing_by exact Nat.div_lt_self (Nat.succ_pos n) (by norm_num)

/-- Modelled from the spec: bzla_util_dec_to_bin_str (utils/bzlautil.c is
not part of the sources) converts a decimal magnitude to its binary
string without leading zeros; the empty string results for zero ("the
decimal is converted to binary").  MSB-first bit list. -/
def decToBin (K : Nat) : List Bool := (natBitsLE K).reverse

/-- parse_open_term_indexed, case of a `bv<K>` symbol with width token n:
the width is read with allow_zero = false; the decimal magnitude is
converted to binary; a binary length above n is an error; length exactly
n gives boolector_const of the binary string; length zero gives
boolector_zero of width n; otherwise the binary string is zero-extended
(bzla_bv_uext) to width n. -/
def parseBvConst (K n : Nat) : Except String BTerm :=
  if n = 0 then
    .error ("expected positive non-zero 32-bit integer at " ++ mkq "0")
  else
    let constr := decToBin K
    let width2 := constr.length
    if width2 > n then
      .error ("decimal constant " ++ mkq (toString K) ++ " needs "
        ++ toString width2 ++ " bits which exceeds bit-width " ++ mkq (toString n))
    else if width2 = n then .ok (.constBV constr)
    else if width2 = 0 then .ok (.constBV (List.replicate n false))
    else .ok (.constBV (List.replicate (n - width2) false ++ constr))

/-! ### Lexer: numeral tokens (claim C9)

We embed the numeral branches of read_token_aux_smt2.  The input after
the first character is a character list; reaching its end models EOF;
savech (one-character unget) is modelled by returning the remaining
input with the unconsumed character still at the front. -/

inductive LexTag where
  | decimalConstant
  | realConstant
  deriving DecidableEq, Repr

inductive LexResult where
  | tok (tag : LexTag) (text : List Char) (rest : List Char)
  | err (msg : String)
  deriving DecidableEq, Repr

/-- BZLA_DECIMAL_DIGIT_CHAR_CLASS_SMT2 membership. -/
def isDecDigit (c : Char) : Bool := decide ('0' ≤ c ∧ c ≤ '9')

/-- Greedy digit run: the loop `while (cc(ch) & DECIMAL_DIGIT) pushch`. -/
def takeDigits : List Char → List Char × List Char
  | [] => ([], [])
  | c :: cs =>
    if isDecDigit c then
      let (ds, rest) := takeDigits cs
      (c :: ds, rest)
    else ([], c :: cs)

/-- Fraction part shared by both numeral branches: after a `.` has been
pushed, at least one digit must follow (EOF and non-digit are errors);
then a greedy digit run. `text` is the token text so far including the
dot; `eofMsg`/`digMsg` are the branch's error messages. -/
def lexFraction (text : List Char) (eofMsg digMsg : String) :
    List Char → LexResult
  | [] => .err eofMsg
  | c :: cs =>
    if isDecDigit c then
      .tok .realConstant (text ++ [c] ++ (takeDigits cs).1) (takeDigits cs).2
    else .err digMsg

/-- read_token_aux_smt2, branch `ch == '0'`: push the zero, read one
more character; a dot continues into a real constant, anything else
(including another digit) is ungot and the single-character decimal
token `0` is returned. -/
def lexZero (input : List Char) : LexResult :=
  match input with
  | '.' :: rest =>
    lexFraction ['0', '.']
      ("unexpected end-of-file after " ++ mkq "0.")
      ("expected decimal digit after " ++ mkq "0.")
      rest
  | _ => .tok .decimalConstant ['0'] input

/-- read_token_aux_smt2, branch of a leading decimal digit other than
`0`: a greedy digit run, then an optional fraction introduced by `.`. -/
def lexNonzeroDigit (ch : Char) (input : List Char) : LexResult :=
  let text := ch :: (takeDigits input).1
  match (takeDigits input).2 with
  | '.' :: rest2 =>
    lexFraction (text ++ ['.'])
      ("unexpected end-of-file after " ++ mkq (String.mk (text ++ ['.'])))
      ("expected decimal digit after " ++ mkq (String.mk (text ++ ['.'])))
      rest2
  | _ => .tok .decimalConstant text (takeDigits input).2

/-- Dispatch of read_token_aux_smt2 for a leading decimal digit. -/
def lexNumberToken (ch : Char) (input : List Char) : LexResult :=
  if ch = '0' then lexZero input else lexNonzeroDigit ch input

/-- Whether a lexer outcome is an error. -/
def LexResult.isErr : LexResult → Bool
  | .err _ => true
  | _ => false

/-! ### End-of-parse logic inference (claim C3) -/

/-- The BzlaLogic values referenced by the parser (enum BzlaLogic of
bzlatypes.h; only the constructors the parser mentions are modelled). -/
inductive BzlaLogic where
  | QF_BV
  | QF_AUFBV
  | QF_ABV
  | QF_UFBV
  | BV
  | QF_FP
  | ALL
  deriving DecidableEq, Repr, Fintype

/-- Modelled from the spec: bzlatypes.h is not part of the sources, so
the numeric value the zero-initialisation BZLA_CLR(res) gives
`res->logic` is unknown.  The spec infers the logic from observed
features when `set-logic` was not given (quantifiers imply BV), which
the code only does when the initial value is BZLA_LOGIC_ALL, so the
zero value is modelled as ALL. -/
def bzlaClrLogic : BzlaLogic := .ALL

/-- Tail of parse_smt2_parser: the final adjustment of res->logic from
the observed need_functions / need_arrays / need_quantifiers flags and
the set-logic command counter. -/
def finalizeLogic (logic : BzlaLogic) (setLogic needFunctions needArrays
    needQuantifiers : Bool) : BzlaLogic :=
  if needFunctions && needArrays && logic = .QF_BV then .QF_AUFBV
  else if needFunctions && logic = .QF_BV then .QF_UFBV
  else if logic = .ALL then
    if !needQuantifiers then
      if needFunctions || needArrays then .QF_AUFBV else .QF_BV
    else .BV
  else if setLogic then
    if !needFunctions && !needArrays && !needQuantifiers && logic = .QF_AUFBV then
      .QF_BV
    else logic
  else logic

/-- The claim's inference rule, written from the spec: quantifiers give
BV; functions and arrays give QF_AUFBV; functions only give QF_UFBV;
otherwise QF_BV. -/
def specInferredLogic (needFunctions needArrays needQuantifiers : Bool) : BzlaLogic :=
  if needQuantifiers then .BV
  else if needFunctions && needArrays then .QF_AUFBV
  else if needFunctions then .QF_UFBV
  else .QF_BV

/-! ### Symbol table (claims C1, C2, C7)

Names are character lists (symbol text without the trailing NUL); entry
identity (pointer identity in C) is modelled by a unique id. -/

abbrev SName := List Char

/-- BzlaSMT2Node, restricted to the fields the claims are about. -/
structure Entry where
  name : SName
  scope_level : Nat
  id : Nat
  deriving DecidableEq, Repr

/-- The parser's symbol table: bucket array, its size, and the number of
entries.  The C table is an array of collision-chain head pointers; a
bucket is the chain read from its head. -/
structure Table where
  size : Nat
  buckets : List (List Entry)
  count : Nat
  deriving DecidableEq, Repr

/-- The four rotating primes of hash_name_smt2. -/
def primesSMT2 : List Nat := [1000000007, 2000000011, 3000000019, 4000000007]

/-- The loop of hash_name_smt2: res += byte; res *= prime[i]; i cycles
through the four primes; uint32 arithmetic. -/
def hashLoop : SName → Nat → Nat → Nat
  | [], res, _ => res
  | c :: cs, res, i =>
    hashLoop cs (((res + c.toNat) * primesSMT2.getD i 0) % 2 ^ 32) ((i + 1) % 4)

/-- A name spelled with surrounding pipes (name[0] == name[len-1] == a
pipe; true also for the one-character name consisting of a pipe, as in
the C index arithmetic). -/
def isQuotedName (n : SName) : Bool := n.head? = some '|' && n.getLast? = some '|'

/-- The byte range hash_name_smt2 iterates over: surrounding pipes of a
quoted symbol are skipped. -/
def stripName (n : SName) : SName :=
  if isQuotedName n then (n.drop 1).dropLast else n

/-- hash_name_smt2: polynomial hash of the pipe-stripped name, masked
with size - 1 (the table size is kept a power of two). -/
def hashName (n : SName) (size : Nat) : Nat :=
  hashLoop (stripName n) 0 0 &&& (size - 1)

/-- size_t subtraction (used for the len - 2 computations of
find_symbol_smt2, which wrap for the one-character name of a pipe). -/
def subSizeT (a b : Nat) : Nat := (a + 2 ^ 64 - b) % 2 ^ 64

/-- The comparison loop body of find_symbol_smt2 between a chain entry
name `en` and the looked-up name `qn`.  strcmp equality is list
equality; strncmp(x, y, k) == 0 is equality of the length-k prefixes
(names contain no NUL bytes). -/
def nameMatches (en qn : SName) : Bool :=
  let enQ := isQuotedName en
  let qnQ := isQuotedName qn
  if enQ = qnQ then en = qn
  else if enQ then
    subSizeT en.length 2 = qn.length && (en.drop 1).take qn.length = qn.take qn.length
  else
    subSizeT qn.length 2 = en.length && en.take en.length = (qn.drop 1).take en.length

/-- find_symbol_smt2: nothing is found in a size-zero table; otherwise
the first matching entry of the hash bucket of the name. -/
def findSymbol (T : Table) (qn : SName) : Option Entry :=
  if T.size = 0 then none
  else (T.buckets.getD (hashName qn T.size) []).find? (fun s => nameMatches s.name qn)

/-- Prepend an entry to the head of bucket h. -/
def prependBucket (bs : List (List Entry)) (h : Nat) (e : Entry) :
    List (List Entry) :=
  bs.set h (e :: bs.getD h [])

/-- One pop of the rehash stack in enlarge_symbol_table_smt2: the popped
entry is prepended to its new bucket. -/
def rehashStep (newSize : Nat) (bs : List (List Entry)) (p : Entry) :
    List (List Entry) :=
  prependBucket bs (hashName p.name newSize) p

/-- enlarge_symbol_table_smt2: the size doubles (1 from 0); the old
buckets are walked in index order; each chain is pushed onto a stack and
then popped (reversing it), each popped entry being prepended to its new
bucket, which preserves the relative order of each chain. -/
def enlargeTable (T : Table) : Table :=
  let newSize := if T.size = 0 then 1 else 2 * T.size
  let newBuckets :=
    T.buckets.foldl
      (fun acc chain => chain.reverse.foldl (rehashStep newSize) acc)
      (List.replicate newSize [])
  { size := newSize, buckets := newBuckets, count := T.count }

/-- insert_symbol_smt2: the table is doubled when count has reached
size; the new entry is prepended to its collision chain. -/
def insertSymbol (T : Table) (e : Entry) : Table :=
  let T := if T.size ≤ T.count then enlargeTable T else T
  { T with
    buckets := prependBucket T.buckets (hashName e.name T.size) e
    count := T.count + 1 }

/-- The unlink loop of remove_symbol_smt2: the chain is walked until the
entry itself is found (pointer identity; the strcmp in the loop
condition is subsumed by it) and that link is removed. -/
def removeFirst (l : List Entry) (e : Entry) : List Entry :=
  match l with
  | [] => []
  | x :: xs => if x = e then xs else x :: removeFirst xs e

/-- remove_symbol_smt2 on the table structure. -/
def removeSymbol (T : Table) (e : Entry) : Table :=
  let h := hashName e.name T.size
  { T with
    buckets := T.buckets.set h (removeFirst (T.buckets.getD h []) e)
    count := T.count - 1 }

/-- Per-bucket effect of close_current_scope: every entry of the given
scope level is removed from the chain. -/
def closeScopeBucket (lvl : Nat) (l : List Entry) : List Entry :=
  l.filter (fun e => e.scope_level ≠ lvl)

/-- Number of entries of the given scope level (each is removed through
remove_symbol_smt2, which decrements count). -/
def scopeCount (lvl : Nat) (T : Table) : Nat :=
  (T.buckets.map (fun b => (b.filter (fun e => e.scope_level = lvl)).length)).sum

/-- close_current_scope on the table structure (the global-declarations
check lives in the parser-state function below). -/
def closeScopeTable (lvl : Nat) (T : Table) : Table :=
  { T with
    buckets := T.buckets.map (closeScopeBucket lvl)
    count := T.count - scopeCount lvl T }

/-- The parser state the scope claims touch.  `live` is the
specification shadow of the table: the live entries, most recently
inserted first.  `backend` is modelled from the spec: the depth of the
backend assertion stack driven by boolector_push / boolector_pop, which
are not part of the sources. -/
structure PState where
  scope_level : Nat
  global_declarations : Bool
  table : Table
  live : List Entry
  nextId : Nat
  backend : Nat
  deriving DecidableEq, Repr

/-- N-fold application (the `for (i = 0; i < level; i++)` loops of the
push and pop commands). -/
def iterateN (f : PState → PState) : Nat → PState → PState
  | 0, st => st
  | n + 1, st => iterateN f n (f st)

/-- open_new_scope. -/
def openNewScope (st : PState) : PState :=
  { st with scope_level := st.scope_level + 1 }

/-- close_current_scope: unless the global-declarations flag is set,
every entry of the current scope level is removed; the level is then
decremented. -/
def closeCurrentScope (st : PState) : PState :=
  if st.global_declarations then
    { st with scope_level := st.scope_level - 1 }
  else
    { st with
      table := closeScopeTable st.scope_level st.table
      live := st.live.filter (fun e => e.scope_level ≠ st.scope_level)
      scope_level := st.scope_level - 1 }

/-- The push command: N calls of open_new_scope, then boolector_push. -/
def pushCmd (N : Nat) (st : PState) : PState :=
  let st := iterateN openNewScope N st
  { st with backend := st.backend + N }

/-- The pop command: popping more scopes than created via push is an
error; otherwise N calls of close_current_scope, then boolector_pop. -/
def popCmd (N : Nat) (st : PState) : Except String PState :=
  if N > st.scope_level then
    .error ("popping more scopes (" ++ toString N
      ++ ") than created via push (" ++ toString st.scope_level ++ ")")
  else
    let st := iterateN closeCurrentScope N st
    .ok { st with backend := st.backend - N }

/-- The symbol-table operations the parser performs: creating and
inserting a fresh node at the current scope level (new_node_smt2 +
insert_symbol_smt2, also done by the lexer for unseen symbols), removing
a live node by identity, and the push / pop commands. -/
inductive Act where
  | ins (name : SName)
  | del (id : Nat)
  | push (n : Nat)
  | pop (n : Nat)
  deriving DecidableEq, Repr

/-- One parser action on the state. -/
def runAct (st : PState) : Act → Except String PState
  | .ins name =>
    let e : Entry := ⟨name, st.scope_level, st.nextId⟩
    .ok { st with
      table := insertSymbol st.table e
      live := e :: st.live
      nextId := st.nextId + 1 }
  | .del i =>
    match st.live.find? (fun e => e.id = i) with
    | some e =>
      .ok { st with
        table := removeSymbol st.table e
        live := removeFirst st.live e }
    | none => .error "remove of a symbol that is not in the table"
  | .push n => .ok (pushCmd n st)
  | .pop n => popCmd n st

/-- A sequence of parser actions. -/
def runActs : List Act → PState → Except String PState
  | [], st => .ok st
  | a :: rest, st =>
    match runAct st a with
    | .ok st2 => runActs rest st2
    | .error e => .error e

/-- The parser's initial state: empty zero-size table, scope level 0. -/
def initState : PState :=
  { scope_level := 0, global_declarations := false
    table := { size := 0, buckets := [], count := 0 }
    live := [], nextId := 0, backend := 0 }

/-- The table represents the live-entry list L (most recent first): the
size is zero and everything empty, or the size is a power of two, the
bucket array has that length, count is the number of live entries, and
every bucket holds exactly the live entries hashing to it, in recency
order. -/
def Rep (L : List Entry) (T : Table) : Prop :=
  (T.size = 0 ∧ T.buckets = [] ∧ T.count = 0 ∧ L = []) ∨
  ((∃ k, T.size = 2 ^ k) ∧ T.buckets.length = T.size ∧ T.count = L.length ∧
    ∀ j, j < T.size →
      T.buckets.getD j [] = L.filter (fun e => hashName e.name T.size = j))

/-- Names handled by the parser are NUL-terminated C strings; all
reachable names satisfy this length bound, which rules out the size_t
wrap cases of find_symbol_smt2's len - 2 computations. -/
def NameOK (n : SName) : Prop := n.length + 2 < 2 ^ 64

/-- The state invariant: the table represents the live list, live ids
are unique and below the id counter, live scope levels never exceed the
current level, and live names are realistic C strings. -/
def Inv (st : PState) : Prop :=
  Rep st.live st.table ∧
  st.live.Pairwise (fun a b => a.id ≠ b.id) ∧
  (∀ e ∈ st.live, e.id < st.nextId) ∧
  (∀ e ∈ st.live, e.scope_level ≤ st.scope_level) ∧
  (∀ e ∈ st.live, NameOK e.name)

/-- Only insertions of realistic names are considered. -/
def ActOK : Act → Prop
  | .ins name => NameOK name
  | _ => True

/-- The quoted spelling of a (pipe-free) name. -/
def quoteName (x : SName) : SName := '|' :: (x ++ ['|'])

/-- Side conditions under which a sequence of actions is a well-nested
window between a `push N` and its matching `pop N` over the protected
base level: nested pops never close a scope at or below the base (their
scopes were opened inside the window), and removals only target entries
created above the base level (the parser removes let-bound symbols,
quantified variables and function parameters, all bound inside the
window). -/
def WindowOK (base : Nat) : List Act → PState → Prop
  | [], _ => True
  | a :: rest, st =>
    (match a with
     | .pop n => base + 1 ≤ st.scope_level - n
     | .del i => ∀ e ∈ st.live, e.id = i → base < e.scope_level
     | _ => True)
    ∧ ∀ st2, runAct st a = .ok st2 → WindowOK base rest st2

/-- Invariant of a state inside a push/pop window over base level
`base` with protected pre-push live list `L0`: the live list is window
entries (all above the base level) on top of the untouched `L0`, and
the scope level stays above the base. -/
def WInv (base : Nat) (L0 : List Entry) (st : PState) : Prop :=
  (∃ Lnew, st.live = Lnew ++ L0 ∧ ∀ e ∈ Lnew, base < e.scope_level) ∧
  base + 1 ≤ st.scope_level

/-! ## Helper lemmas -/

/-- AND of a possibly-empty expression list: none for the empty list,
otherwise the left fold seeded with the first element. -/
def andChainAll : List BTerm → Option BTerm
  | [] => none
  | x :: xs => some (andChain x xs)

/-- Accumulator step shared by the two distinct loops. -/
def optAnd (acc : Option BTerm) (t : BTerm) : Option BTerm :=
  some (match acc with | none => t | some e => .band e t)

theorem andChain_cons (e x : BTerm) (xs : List BTerm) :
    andChain e (x :: xs) = andChain (.band e x) xs := rfl

theorem eqChainLoop_spec (xs : List BTerm) : ∀ prev acc,
    eqChainLoop prev acc xs
      = andChain acc ((consecPairs (prev :: xs)).map (fun p => BTerm.eq p.1 p.2)) := by
  induction xs with
  | nil => intro prev acc; rfl
  | cons x xs ih =>
    intro prev acc
    have h2 : consecPairs (prev :: x :: xs) = (prev, x) :: consecPairs (x :: xs) := rfl
    rw [eqChainLoop, ih, h2]
    rfl

theorem distinctInner_spec (xs : List BTerm) : ∀ ai acc,
    distinctInner ai xs acc = (xs.map (fun y => BTerm.ne ai y)).foldl optAnd acc := by
  induction xs with
  | nil => intro ai acc; rfl
  | cons x xs ih =>
    intro ai acc
    have hstep : distinctInner ai (x :: xs) acc
        = distinctInner ai xs (optAnd acc (.ne ai x)) := by
      cases acc <;> rfl
    rw [hstep, ih, List.map_cons, List.foldl_cons]

theorem distinctOuter_spec (l : List BTerm) : ∀ acc,
    distinctOuter l acc = ((allPairsLex l).map (fun p => BTerm.ne p.1 p.2)).foldl optAnd acc := by
  induction l with
  | nil => intro acc; rfl
  | cons x xs ih =>
    intro acc
    rw [distinctOuter, ih, allPairsLex, List.map_append, List.foldl_append,
      distinctInner_spec, List.map_map]
    rfl

theorem foldl_optAnd_some (l : List BTerm) : ∀ e,
    l.foldl optAnd (some e) = some (andChain e l) := by
  induction l with
  | nil => intro e; rfl
  | cons x xs ih => intro e; rw [List.foldl_cons, andChain_cons, ← ih]; rfl

theorem foldl_optAnd_none (x : BTerm) (xs : List BTerm) :
    (x :: xs).foldl optAnd none = andChainAll (x :: xs) := by
  rw [List.foldl_cons, andChainAll]
  exact foldl_optAnd_some xs x

theorem allPairsLex_length (l : List BTerm) :
    2 * (allPairsLex l).length = l.length * (l.length - 1) := by
  induction l with
  | nil => rfl
  | cons x xs ih =>
    rw [allPairsLex, List.length_append, List.length_map, List.length_cons]
    cases hxl : xs.length with
    | zero =>
      simp only [hxl] at ih
      omega
    | succ m =>
      simp only [hxl] at ih
      have ih2 : 2 * (allPairsLex xs).length = (m + 1) * m := by
        simpa using ih
      have h2 : (m + 1 + 1) * (m + 1 + 1 - 1) = (m + 1) * m + 2 * (m + 1) := by
        simp only [Nat.add_sub_cancel]
        ring
      omega

theorem checkSortsScalarFrom_uniform (op : String) (w : Nat) (s0 : BSort)
    (hs0 : s0 = .bv w) :
    ∀ (rest : List BTerm) (i : Nat), (∀ t ∈ rest, sortOf t = s0) →
      checkSortsScalarFrom op w i rest = .ok () := by
  intro rest
  induction rest with
  | nil => intro i _; rfl
  | cons t ts ih =>
    intro i hall
    have ht : sortOf t = s0 := hall t (by simp)
    rw [checkSortsScalarFrom]
    have ha : isArrayT t = false := by rw [isArrayT, ht, hs0]
    have hf : isFunT t = false := by rw [isFunT, ht, hs0]
    have hw : bvWidth t = w := by rw [bvWidth, ht, hs0]
    rw [ha, hf, hw]
    simp only [if_false, Bool.false_eq_true, ne_eq, not_true_eq_false, if_neg,
      not_false_eq_true]
    exact ih (i + 1) (fun u hu => hall u (by simp [hu]))

theorem checkSortsArrayFrom_uniform (op : String) (iw ew : Nat) (s0 : BSort)
    (hs0 : s0 = .arr iw ew) :
    ∀ (rest : List BTerm) (i : Nat), (∀ t ∈ rest, sortOf t = s0) →
      checkSortsArrayFrom op ew iw i rest = .ok () := by
  intro rest
  induction rest with
  | nil => intro i _; rfl
  | cons t ts ih =>
    intro i hall
    have ht : sortOf t = s0 := hall t (by simp)
    rw [checkSortsArrayFrom]
    have ha : isArrayT t = true := by rw [isArrayT, ht, hs0]
    have hw : bvWidth t = ew := by rw [bvWidth, ht, hs0]
    have hi : arrIdxWidth t = iw := by rw [arrIdxWidth, ht, hs0]
    rw [ha, hw, hi]
    simp only [Bool.not_true, Bool.false_eq_true, if_false, ne_eq,
      not_true_eq_false, if_neg, not_false_eq_true]
    exact ih (i + 1) (fun u hu => hall u (by simp [hu]))

theorem checkSortsFunFrom_uniform (op : String) (s0 : BSort) (hs0 : s0 = .fn) :
    ∀ (rest : List BTerm) (i : Nat), (∀ t ∈ rest, sortOf t = s0) →
      checkSortsFunFrom op s0 i rest = .ok () := by
  intro rest
  induction rest with
  | nil => intro i _; rfl
  | cons t ts ih =>
    intro i hall
    have ht : sortOf t = s0 := hall t (by simp)
    rw [checkSortsFunFrom]
    have hf : isFunT t = true := by rw [isFunT, ht, hs0]
    rw [hf, ht]
    simp only [Bool.not_true, Bool.false_eq_true, if_false, ne_eq,
      not_true_eq_false, if_neg, not_false_eq_true]
    exact ih (i + 1) (fun u hu => hall u (by simp [hu]))

theorem checkArgSortsMatch_uniform (op : String) (args : List BTerm) (s0 : BSort)
    (hs : ∀ t ∈ args, sortOf t = s0) : checkArgSortsMatch op args = .ok () := by
  cases args with
  | nil => rfl
  | cons t1 rest =>
    have ht1 : sortOf t1 = s0 := hs t1 (by simp)
    have hrest : ∀ t ∈ rest, sortOf t = s0 := fun u hu => hs u (by simp [hu])
    rw [checkArgSortsMatch]
    cases hs0 : s0 with
    | bv w =>
      have ha : isArrayT t1 = false := by rw [isArrayT, ht1, hs0]
      have hf : isFunT t1 = false := by rw [isFunT, ht1, hs0]
      have hw : bvWidth t1 = w := by rw [bvWidth, ht1, hs0]
      rw [ha, hf, hw]
      simp only [Bool.false_eq_true, if_false]
      exact checkSortsScalarFrom_uniform op w s0 hs0 rest 2 hrest
    | arr iw ew =>
      have ha : isArrayT t1 = true := by rw [isArrayT, ht1, hs0]
      have hw : bvWidth t1 = ew := by rw [bvWidth, ht1, hs0]
      have hiw : arrIdxWidth t1 = iw := by rw [arrIdxWidth, ht1, hs0]
      rw [ha, hw, hiw]
      simp only [if_true]
      exact checkSortsArrayFrom_uniform op iw ew s0 hs0 rest 2 hrest
    | fn =>
      have ha : isArrayT t1 = false := by rw [isArrayT, ht1, hs0]
      have hf : isFunT t1 = true := by rw [isFunT, ht1, hs0]
      rw [ha, hf, ht1]
      simp only [Bool.false_eq_true, if_false, if_true]
      exact checkSortsFunFrom_uniform op s0 hs0 rest 2 hrest

theorem consecPairs_length (l : List BTerm) :
    (consecPairs l).length + 1 = l.length ∨ l = [] := by
  cases l with
  | nil => right; rfl
  | cons x xs =>
    left
    rw [consecPairs, List.length_zip]
    simp

theorem bitsVal_append_singleton (l : List Bool) (b : Bool) :
    bitsVal (l ++ [b]) = 2 * bitsVal l + (if b then 1 else 0) := by
  simp [bitsVal, List.foldl_append]

theorem bitsVal_decToBin : ∀ n : Nat, bitsVal (decToBin n) = n := by
  intro n
  induction n using Nat.strong_induction_on with
  | _ n ih =>
    match n with
    | 0 => simp [decToBin, natBitsLE, bitsVal]
    | m + 1 =>
      have hdiv : (m + 1) / 2 < m + 1 := Nat.div_lt_self (Nat.succ_pos m) (by norm_num)
      have hrec := ih ((m + 1) / 2) hdiv
      rw [decToBin, natBitsLE, List.reverse_cons, bitsVal_append_singleton]
      rw [show (natBitsLE ((m + 1) / 2)).reverse = decToBin ((m + 1) / 2) from rfl, hrec]
      rcases Nat.mod_two_eq_zero_or_one (m + 1) with h2 | h2 <;>
        · simp [h2]
          omega

theorem natBitsLE_nil_iff (n : Nat) : natBitsLE n = [] ↔ n = 0 := by
  cases n with
  | zero => simp [natBitsLE]
  | succ m => simp [natBitsLE]

theorem natBitsLE_length_le : ∀ (m n : Nat), (natBitsLE n).length ≤ m ↔ n < 2 ^ m := by
  intro m
  induction m with
  | zero =>
    intro n
    cases n with
    | zero => simp [natBitsLE]
    | succ s => simp [natBitsLE]
  | succ m ih =>
    intro n
    cases n with
    | zero =>
      simp only [natBitsLE, List.length_nil]
      exact iff_of_true (Nat.zero_le _) (Nat.pos_pow_of_pos _ (by norm_num))
    | succ s =>
      rw [natBitsLE, List.length_cons, Nat.succ_le_succ_iff, ih]
      rw [Nat.div_lt_iff_lt_mul (by norm_num : (0:Nat) < 2)]
      rw [pow_succ]

theorem bitsVal_replicate_false (j : Nat) (l : List Bool) :
    bitsVal (List.replicate j false ++ l) = bitsVal l := by
  induction j with
  | zero => simp
  | succ m ih =>
    rw [List.replicate_succ, List.cons_append]
    show bitsVal (false :: (List.replicate m false ++ l)) = _
    rw [show bitsVal (false :: (List.replicate m false ++ l))
        = bitsVal (List.replicate m false ++ l) from by simp [bitsVal]]
    exact ih

theorem except_bind_ok {e a b : Type} (x : a) (f : a → Except e b) :
    Except.bind (.ok x) f = f x := rfl

/-! ## Claim theorems -/

/-- C3 counterexample: with no set-logic command and only uninterpreted
functions observed (no arrays, no quantifiers), the recorded logic at
the end of parsing is QF_AUFBV, not the QF_UFBV the claim states. -/
theorem c3_logic_counterexample :
    finalizeLogic bzlaClrLogic false true false false = BzlaLogic.QF_AUFBV
    ∧ finalizeLogic bzlaClrLogic false true false false ≠ BzlaLogic.QF_UFBV := by
  constructor
  · decide
  · decide

/-- C3 (amended): with the zero-initialised logic modelled as ALL, a
parse run without set-logic records BV if quantifiers were observed,
QF_AUFBV if functions or arrays were observed (functions alone also give
QF_AUFBV, not QF_UFBV), and QF_BV otherwise; when set-logic QF_BV was
given, needed functions upgrade the logic to QF_AUFBV (with arrays) or
QF_UFBV (without).  Moreover no possible zero value of the logic enum
makes the claim's original conjunction (functions only giving QF_UFBV
and quantifiers giving BV, both without set-logic) hold. -/
theorem c3_logic_inference_amended :
    (∀ fns arrs qu : Bool,
      finalizeLogic .ALL false fns arrs qu
        = (if qu then .BV else if fns || arrs then .QF_AUFBV else .QF_BV))
    ∧ (∀ fns arrs qu : Bool,
      finalizeLogic .QF_BV true fns arrs qu
        = (if fns && arrs then .QF_AUFBV else if fns then .QF_UFBV else .QF_BV))
    ∧ (∀ d : BzlaLogic, ¬(finalizeLogic d false true false false = .QF_UFBV
        ∧ finalizeLogic d false false false true = .BV)) := by
  refine ⟨by decide, by decide, by decide⟩

/-- C4: parsing `((_ extract hi lo) t)` over a non-array bit-vector term
of width w errors at shift time when hi < lo, errors at reduction with
the quoted message when hi is at least w, and otherwise reduces to the
slice of t from bit hi down to bit lo. -/
theorem c4_extract_bounds (hi lo w : Nat) (t : BTerm) (ht : sortOf t = .bv w) :
    (hi < lo → parseExtractIndices hi lo
      = .error ("first parameter " ++ mkq (toString hi) ++ " of " ++ sq
          ++ "(_ extract" ++ sq ++ " smaller than second " ++ mkq (toString lo)))
    ∧ (w ≤ hi → closeTermExtract hi lo [t]
      = .error ("first (high) " ++ mkq "extract" ++ " parameter " ++ toString hi
          ++ " too large for bit-vector argument of bit-width " ++ toString w))
    ∧ (hi < w → closeTermExtract hi lo [t] = .ok (.slice t hi lo)) := by
  have ha : isArrayT t = false := by rw [isArrayT, ht]
  have hf : isFunT t = false := by rw [isFunT, ht]
  have hw : bvWidth t = w := by rw [bvWidth, ht]
  have hchecks : closeTermExtract hi lo [t]
      = (if w ≤ hi then
          .error ("first (high) " ++ mkq "extract" ++ " parameter " ++ toString hi
            ++ " too large for bit-vector argument of bit-width " ++ toString w)
         else .ok (.slice t hi lo)) := by
    have hred : closeTermExtract hi lo [t]
        = Except.bind (checkNotArrayOrUfArgs "extract" [t]) (fun _ =>
            if bvWidth t ≤ hi then
              .error ("first (high) " ++ mkq "extract" ++ " parameter " ++ toString hi
                ++ " too large for bit-vector argument of bit-width " ++ toString (bvWidth t))
            else .ok (.slice t hi lo)) := rfl
    have hc : checkNotArrayOrUfArgs "extract" [t] = .ok () := by
      simp [checkNotArrayOrUfArgs, checkNotArrayOrUfFrom, ha, hf]
    rw [hred, hc, except_bind_ok, hw]
  refine ⟨fun hlt => ?_, fun hge => ?_, fun hlt => ?_⟩
  · rw [parseExtractIndices, if_pos hlt]
  · rw [hchecks, if_pos hge]
  · rw [hchecks, if_neg (by omega)]

/-- C4 witness. -/
theorem c4_extract_bounds_witness :
    sortOf (BTerm.var 0 (.bv 8)) = .bv 8
    ∧ ((0 < 1 → parseExtractIndices 0 1
        = .error ("first parameter " ++ mkq (toString 0) ++ " of " ++ sq
            ++ "(_ extract" ++ sq ++ " smaller than second " ++ mkq (toString 1)))
      ∧ (8 ≤ 0 → closeTermExtract 0 1 [BTerm.var 0 (.bv 8)]
        = .error ("first (high) " ++ mkq "extract" ++ " parameter " ++ toString 0
            ++ " too large for bit-vector argument of bit-width " ++ toString 8))
      ∧ (0 < 8 → closeTermExtract 0 1 [BTerm.var 0 (.bv 8)]
          = .ok (.slice (BTerm.var 0 (.bv 8)) 0 1))) :=
  ⟨rfl, c4_extract_bounds 0 1 8 (BTerm.var 0 (.bv 8)) rfl⟩

/-- C5: for `(_ bvK n)` with n at least 1, every magnitude below 2^n
produces a bit-vector constant of width exactly n whose value is K
(zero-extending a shorter binary representation), and a magnitude whose
binary representation needs more than n bits is an error. -/
theorem c5_bv_const_roundtrip (K n : Nat) (hn : 1 ≤ n) :
    (K < 2 ^ n → ∃ bits, parseBvConst K n = .ok (.constBV bits)
        ∧ bits.length = n ∧ bitsVal bits = K)
    ∧ (2 ^ n ≤ K → parseBvConst K n
        = .error ("decimal constant " ++ mkq (toString K) ++ " needs "
            ++ toString (decToBin K).length ++ " bits which exceeds bit-width "
            ++ mkq (toString n))) := by
  have hn0 : n ≠ 0 := by omega
  have hlen : (decToBin K).length = (natBitsLE K).length := by
    rw [decToBin, List.length_reverse]
  constructor
  · intro hK
    have hle : (decToBin K).length ≤ n := by
      rw [hlen, natBitsLE_length_le]; exact hK
    rw [parseBvConst, if_neg hn0]
    by_cases heq : (decToBin K).length = n
    · refine ⟨decToBin K, ?_, heq, bitsVal_decToBin K⟩
      rw [if_neg (by omega), if_pos heq]
    · by_cases hz : (decToBin K).length = 0
      · have hK0 : K = 0 := by
          have := (natBitsLE_nil_iff K).mp (List.eq_nil_of_length_eq_zero (by omega))
          exact this
        refine ⟨List.replicate n false, ?_, List.length_replicate n false, ?_⟩
        · rw [if_neg (by omega), if_neg heq, if_pos hz]
        · rw [hK0]
          have := bitsVal_replicate_false n []
          simpa using this
      · refine ⟨List.replicate (n - (decToBin K).length) false ++ decToBin K, ?_, ?_, ?_⟩
        · rw [if_neg (by omega), if_neg heq, if_neg hz]
        · rw [List.length_append, List.length_replicate]
          omega
        · rw [bitsVal_replicate_false, bitsVal_decToBin]
  · intro hK
    have hgt : (decToBin K).length > n := by
      rw [hlen]
      by_contra hcon
      have := (natBitsLE_length_le n K).mp (by omega)
      omega
    rw [parseBvConst, if_neg hn0, if_pos hgt]

/-- C5 witness. -/
theorem c5_bv_const_roundtrip_witness :
    1 ≤ 8
    ∧ ((5 < 2 ^ 8 → ∃ bits, parseBvConst 5 8 = .ok (.constBV bits)
        ∧ bits.length = 8 ∧ bitsVal bits = 5)
      ∧ (2 ^ 8 ≤ 5 → parseBvConst 5 8
        = .error ("decimal constant " ++ mkq (toString 5) ++ " needs "
            ++ toString (decToBin 5).length ++ " bits which exceeds bit-width "
            ++ mkq (toString 8)))) :=
  ⟨by decide, c5_bv_const_roundtrip 5 8 (by decide)⟩

/-- C6: for `=` and `distinct` over at least two arguments of uniform
sort, the reduction produces the left-folded AND of the consecutive-pair
equalities (n-1 of them) respectively of the pairwise inequalities over
all i < j pairs (n(n-1)/2 of them); zero arguments and one argument are
errors for both operators. -/
theorem c6_eq_distinct_reduction (a1 a2 : BTerm) (rest : List BTerm) (s0 : BSort)
    (hs : ∀ t ∈ a1 :: a2 :: rest, sortOf t = s0) :
    closeTermEq (a1 :: a2 :: rest)
      = .ok (andChain (.eq a1 a2)
          ((consecPairs (a2 :: rest)).map (fun p => BTerm.eq p.1 p.2)))
    ∧ (consecPairs (a1 :: a2 :: rest)).length + 1 = (a1 :: a2 :: rest).length
    ∧ closeTermDistinct (a1 :: a2 :: rest)
      = .ok (andChainAll ((allPairsLex (a1 :: a2 :: rest)).map (fun p => BTerm.ne p.1 p.2)))
    ∧ 2 * (allPairsLex (a1 :: a2 :: rest)).length
      = (a1 :: a2 :: rest).length * ((a1 :: a2 :: rest).length - 1)
    ∧ closeTermEq [] = .error ("arguments to " ++ mkq "=" ++ " missing")
    ∧ closeTermEq [a1] = .error ("only one argument to " ++ mkq "=")
    ∧ closeTermDistinct [] = .error ("arguments to " ++ mkq "distinct" ++ " missing")
    ∧ closeTermDistinct [a1] = .error ("only one argument to " ++ mkq "distinct") := by
  have hcheckEq := checkArgSortsMatch_uniform "=" (a1 :: a2 :: rest) s0 hs
  have hcheckD := checkArgSortsMatch_uniform "distinct" (a1 :: a2 :: rest) s0 hs
  refine ⟨?_, ?_, ?_, ?_, rfl, rfl, rfl, rfl⟩
  · have hred : closeTermEq (a1 :: a2 :: rest)
        = Except.bind (checkArgSortsMatch "=" (a1 :: a2 :: rest))
            (fun _ => Except.ok (eqChainLoop a2 (.eq a1 a2) rest)) := rfl
    rw [hred, hcheckEq, except_bind_ok, eqChainLoop_spec]
  · rcases consecPairs_length (a1 :: a2 :: rest) with h | h
    · exact h
    · cases h
  · have hshape : closeTermDistinct (a1 :: a2 :: rest)
        = .ok (distinctOuter (a1 :: a2 :: rest) none) := by
      have hred : closeTermDistinct (a1 :: a2 :: rest)
          = Except.bind (checkArgSortsMatch "distinct" (a1 :: a2 :: rest))
              (fun _ => Except.ok (distinctOuter (a1 :: a2 :: rest) none)) := rfl
      rw [hred, hcheckD, except_bind_ok]
    rw [hshape, distinctOuter_spec]
    have hne : (allPairsLex (a1 :: a2 :: rest)).map (fun p => BTerm.ne p.1 p.2)
        = BTerm.ne a1 a2 :: ((rest.map (fun y => BTerm.ne a1 y))
            ++ (allPairsLex (a2 :: rest)).map (fun p => BTerm.ne p.1 p.2)) := by
      rw [allPairsLex]
      simp
    rw [hne, foldl_optAnd_none, ← hne]
  · exact allPairsLex_length (a1 :: a2 :: rest)

/-- C6 witness. -/
theorem c6_eq_distinct_reduction_witness :
    (∀ t ∈ [BTerm.var 0 (.bv 4), BTerm.var 1 (.bv 4), BTerm.var 2 (.bv 4)],
      sortOf t = .bv 4)
    ∧ (closeTermEq [BTerm.var 0 (.bv 4), BTerm.var 1 (.bv 4), BTerm.var 2 (.bv 4)]
      = .ok (andChain (.eq (BTerm.var 0 (.bv 4)) (BTerm.var 1 (.bv 4)))
          ((consecPairs [BTerm.var 1 (.bv 4), BTerm.var 2 (.bv 4)]).map
            (fun p => BTerm.eq p.1 p.2)))
    ∧ (consecPairs [BTerm.var 0 (.bv 4), BTerm.var 1 (.bv 4), BTerm.var 2 (.bv 4)]).length + 1
      = ([BTerm.var 0 (.bv 4), BTerm.var 1 (.bv 4), BTerm.var 2 (.bv 4)] : List BTerm).length
    ∧ closeTermDistinct [BTerm.var 0 (.bv 4), BTerm.var 1 (.bv 4), BTerm.var 2 (.bv 4)]
      = .ok (andChainAll
          ((allPairsLex [BTerm.var 0 (.bv 4), BTerm.var 1 (.bv 4), BTerm.var 2 (.bv 4)]).map
            (fun p => BTerm.ne p.1 p.2)))
    ∧ 2 * (allPairsLex [BTerm.var 0 (.bv 4), BTerm.var 1 (.bv 4), BTerm.var 2 (.bv 4)]).length
      = ([BTerm.var 0 (.bv 4), BTerm.var 1 (.bv 4), BTerm.var 2 (.bv 4)] : List BTerm).length
        * (([BTerm.var 0 (.bv 4), BTerm.var 1 (.bv 4), BTerm.var 2 (.bv 4)] : List BTerm).length - 1)
    ∧ closeTermEq [] = .error ("arguments to " ++ mkq "=" ++ " missing")
    ∧ closeTermEq [BTerm.var 0 (.bv 4)] = .error ("only one argument to " ++ mkq "=")
    ∧ closeTermDistinct [] = .error ("arguments to " ++ mkq "distinct" ++ " missing")
    ∧ closeTermDistinct [BTerm.var 0 (.bv 4)]
      = .error ("only one argument to " ++ mkq "distinct")) :=
  ⟨by decide,
    c6_eq_distinct_reduction (BTerm.var 0 (.bv 4)) (BTerm.var 1 (.bv 4))
      [BTerm.var 2 (.bv 4)] (.bv 4) (by decide)⟩

/-- C8 counterexample: for a 2-bit operand and the constant 10 (value
2), the claim predicts the indexed rotate by 2 mod 2 = 0, but
translate_ext_rotate_smt2 performs no modulo reduction and instead hits
its shift_width < width assertion (modelled as the `none` outcome). -/
theorem c8_ext_rotate_counterexample :
    closeTermExtRotate true [BTerm.var 0 (.bv 2), BTerm.constBV [true, false]]
      = .ok none
    ∧ (Except.ok none : Except String (Option BTerm))
      ≠ .ok (some (.roli (BTerm.var 0 (.bv 2)) (2 % 2))) := by
  constructor
  · rfl
  · intro h
    simp at h

/-- C8 (amended): for ext_rotate with two non-array, non-function
arguments, a non-constant second argument is an error; when the second
argument is a bit-vector constant whose value (truncated to 32 bits) is
below the width of t, the term reduces to the indexed rotate of t by
that value — which then equals the value mod the width; no modulo is
applied by the code, and a value not below the width fails an internal
assertion instead. -/
theorem c8_ext_rotate_amended (isLeft : Bool) (t : BTerm) (bits : List Bool) (w n : Nat)
    (ht : sortOf t = .bv w) (hlen : bits.length ≤ 64)
    (hv : bitsVal bits % 2 ^ 32 < w) :
    closeTermExtRotate isLeft [t, .constBV bits]
      = .ok (some (if isLeft then .roli t (bitsVal bits % 2 ^ 32)
                   else .rori t (bitsVal bits % 2 ^ 32)))
    ∧ (bitsVal bits % 2 ^ 32) % w = bitsVal bits % 2 ^ 32
    ∧ closeTermExtRotate isLeft [t, BTerm.var n (.bv w)]
      = .error ("second argument of ext_rotate_" ++ (if isLeft then "left" else "right")
          ++ " is not a bit vector constant") := by
  have ha : isArrayT t = false := by rw [isArrayT, ht]
  have hf : isFunT t = false := by rw [isFunT, ht]
  have hwid : bvWidth t = w := by rw [bvWidth, ht]
  refine ⟨?_, Nat.mod_eq_of_lt hv, ?_⟩
  · have hred : closeTermExtRotate isLeft [t, .constBV bits]
        = Except.bind
            (checkNotArrayOrUfArgs
              ("ext_rotate_" ++ (if isLeft then "left" else "right")) [t, .constBV bits])
            (fun _ => Except.ok (translateExtRotate isLeft t bits)) := rfl
    have hc : checkNotArrayOrUfArgs
        ("ext_rotate_" ++ (if isLeft then "left" else "right")) [t, .constBV bits]
        = .ok () := by
      simp [checkNotArrayOrUfArgs, checkNotArrayOrUfFrom, isArrayT, isFunT, sortOf, ht]
    rw [hred, hc, except_bind_ok, translateExtRotate, if_neg (by omega)]
    simp only [hwid]
    rw [if_pos hv]
  · have hred : closeTermExtRotate isLeft [t, BTerm.var n (.bv w)]
        = Except.bind
            (checkNotArrayOrUfArgs
              ("ext_rotate_" ++ (if isLeft then "left" else "right")) [t, BTerm.var n (.bv w)])
            (fun _ => Except.error ("second argument of ext_rotate_"
                ++ (if isLeft then "left" else "right")
                ++ " is not a bit vector constant")) := rfl
    have hc : checkNotArrayOrUfArgs
        ("ext_rotate_" ++ (if isLeft then "left" else "right")) [t, BTerm.var n (.bv w)]
        = .ok () := by
      simp [checkNotArrayOrUfArgs, checkNotArrayOrUfFrom, isArrayT, isFunT, sortOf, ht]
    rw [hred, hc, except_bind_ok]

/-- C8 witness. -/
theorem c8_ext_rotate_amended_witness :
    sortOf (BTerm.var 0 (.bv 4)) = .bv 4
    ∧ ([true] : List Bool).length ≤ 64
    ∧ bitsVal [true] % 2 ^ 32 < 4
    ∧ (closeTermExtRotate true [BTerm.var 0 (.bv 4), BTerm.constBV [true]]
      = .ok (some (if true then .roli (BTerm.var 0 (.bv 4)) (bitsVal [true] % 2 ^ 32)
                   else .rori (BTerm.var 0 (.bv 4)) (bitsVal [true] % 2 ^ 32)))
    ∧ (bitsVal [true] % 2 ^ 32) % 4 = bitsVal [true] % 2 ^ 32
    ∧ closeTermExtRotate true [BTerm.var 0 (.bv 4), BTerm.var 1 (.bv 4)]
      = .error ("second argument of ext_rotate_" ++ (if true then "left" else "right")
          ++ " is not a bit vector constant")) :=
  ⟨rfl, by decide, by decide,
    c8_ext_rotate_amended true (BTerm.var 0 (.bv 4)) [true] 4 1 rfl (by decide) (by decide)⟩

/-- C10: for the indexed rotates over a single non-array bit-vector
argument of positive width w, every unsigned 32-bit index k is accepted
(no upper-bound check against w) and the amount handed to the backend is
k mod w. -/
theorem c10_rotate_mod (isLeft : Bool) (k w : Nat) (t : BTerm)
    (ht : sortOf t = .bv w) (hw : 1 ≤ w) (hk : k < 2 ^ 32) :
    closeTermRotate isLeft k [t]
      = .ok (if isLeft then .roli t (k % w) else .rori t (k % w)) := by
  have ha : isArrayT t = false := by rw [isArrayT, ht]
  have hf : isFunT t = false := by rw [isFunT, ht]
  have hwid : bvWidth t = w := by rw [bvWidth, ht]
  have hred : closeTermRotate isLeft k [t]
      = Except.bind
          (checkNotArrayOrUfArgs (if isLeft then "rotate_left" else "rotate_right") [t])
          (fun _ => Except.ok (if isLeft then .roli t (k % bvWidth t)
                               else .rori t (k % bvWidth t))) := rfl
  have hc : checkNotArrayOrUfArgs (if isLeft then "rotate_left" else "rotate_right") [t]
      = .ok () := by
    simp [checkNotArrayOrUfArgs, checkNotArrayOrUfFrom, ha, hf]
  rw [hred, hc, except_bind_ok, hwid]

/-- C10 witness: the index 9 exceeds the width 4 and is still accepted,
with rotate amount 9 mod 4. -/
theorem c10_rotate_mod_witness :
    sortOf (BTerm.var 0 (.bv 4)) = .bv 4 ∧ 1 ≤ 4 ∧ 9 < 2 ^ 32
    ∧ closeTermRotate true 9 [BTerm.var 0 (.bv 4)]
      = .ok (if true then .roli (BTerm.var 0 (.bv 4)) (9 % 4)
             else .rori (BTerm.var 0 (.bv 4)) (9 % 4)) :=
  ⟨rfl, by decide, by decide,
    c10_rotate_mod true 9 4 (BTerm.var 0 (.bv 4)) rfl (by decide) (by decide)⟩

/-- C9 counterexample: the input 01 is not a lexical error; the lexer
returns the decimal token 0 and leaves the digit 1 for the next token. -/
theorem c9_leading_zero_counterexample :
    lexNumberToken '0' ['1'] = .tok .decimalConstant ['0'] ['1']
    ∧ (lexNumberToken '0' ['1']).isErr = false := by
  constructor
  · rfl
  · rfl

/-- C9 (amended): a leading `0` not followed by `.` yields the
single-character decimal numeral 0 with the following character (digit
or not) left for the next token — no lexical error; a leading non-zero
digit starts a greedy decimal numeral; a `.` directly after the digits
(with at least one digit after it) makes the token a real constant. -/
theorem c9_lexer_zero_amended :
    (∀ c rest, c ≠ '.' →
      lexNumberToken '0' (c :: rest) = .tok .decimalConstant ['0'] (c :: rest))
    ∧ lexNumberToken '0' [] = .tok .decimalConstant ['0'] []
    ∧ (∀ d rest, isDecDigit d = true →
      lexNumberToken '0' ('.' :: d :: rest)
        = .tok .realConstant (['0', '.'] ++ [d] ++ (takeDigits rest).1) (takeDigits rest).2)
    ∧ (∀ ch input ds rest, isDecDigit ch = true → ch ≠ '0' →
        takeDigits input = (ds, rest) → rest.head? ≠ some '.' →
        lexNumberToken ch input = .tok .decimalConstant (ch :: ds) rest)
    ∧ (∀ ch input ds d rest, isDecDigit ch = true → ch ≠ '0' →
        takeDigits input = (ds, '.' :: d :: rest) → isDecDigit d = true →
        lexNumberToken ch input
          = .tok .realConstant ((ch :: ds) ++ ['.'] ++ [d] ++ (takeDigits rest).1)
              (takeDigits rest).2) := by
  refine ⟨?_, rfl, ?_, ?_, ?_⟩
  · intro c rest hc
    have h0 : lexNumberToken '0' (c :: rest) = lexZero (c :: rest) := by
      rw [lexNumberToken, if_pos rfl]
    rw [h0]
    unfold lexZero
    split
    · next rest2 heq =>
      injection heq with h1 h2
      exact absurd h1 hc
    · rfl
  · intro d rest hd
    have h0 : lexNumberToken '0' ('.' :: d :: rest)
        = lexFraction ['0', '.']
            ("unexpected end-of-file after " ++ mkq "0.")
            ("expected decimal digit after " ++ mkq "0.") (d :: rest) := rfl
    rw [h0]
    simp only [lexFraction, hd, if_true]
  · intro ch input ds rest hch hch0 htd hrest
    have h0 : lexNumberToken ch input = lexNonzeroDigit ch input := by
      rw [lexNumberToken, if_neg hch0]
    rw [h0]
    simp only [lexNonzeroDigit, htd]
    split
    · simp at hrest
    · rfl
  · intro ch input ds d rest hch hch0 htd hd
    have h0 : lexNumberToken ch input = lexNonzeroDigit ch input := by
      rw [lexNumberToken, if_neg hch0]
    rw [h0]
    simp only [lexNonzeroDigit, htd]
    simp only [lexFraction, hd, if_true]

/-- C9 witness. -/
theorem c9_lexer_zero_amended_witness :
    ('1' : Char) ≠ '.'
    ∧ lexNumberToken '0' ['1', '2'] = .tok .decimalConstant ['0'] ['1', '2'] :=
  ⟨by decide, (c9_lexer_zero_amended.1 '1' ['2'] (by decide))⟩

/-! ## Symbol-table lemmas -/

theorem isQuotedName_quote (x : SName) : isQuotedName (quoteName x) = true := by
  rw [isQuotedName, quoteName]
  have h2 : ('|' :: (x ++ ['|'])).getLast? = some '|' := by
    rw [show '|' :: (x ++ ['|']) = ('|' :: x) ++ ['|'] from rfl]
    exact List.getLast?_concat _
  simp [h2]

theorem stripName_quote (x : SName) : stripName (quoteName x) = x := by
  rw [stripName, if_pos (isQuotedName_quote x)]
  show (x ++ ['|']).dropLast = x
  exact List.dropLast_concat

theorem isQuotedName_unquoted (x : SName) (hx : x ≠ []) (hp : '|' ∉ x) :
    isQuotedName x = false := by
  cases x with
  | nil => exact absurd rfl hx
  | cons c t =>
    have hc : c ≠ '|' := fun h => hp (h ▸ List.mem_cons_self c t)
    rw [isQuotedName]
    simp [hc]

theorem stripName_unquoted (x : SName) (hq : isQuotedName x = false) :
    stripName x = x := by
  rw [stripName, hq]
  simp

theorem length_quote (x : SName) : (quoteName x).length = x.length + 2 := by
  simp [quoteName]

theorem subSizeT_of_ge_two (a : Nat) (h2 : 2 ≤ a) (hb : a - 2 < 2 ^ 64) :
    subSizeT a 2 = a - 2 := by
  rw [subSizeT]
  omega

theorem subSizeT_one_two : subSizeT 1 2 = 2 ^ 64 - 1 := by
  rw [subSizeT]
  omega

theorem quoted_singleton (s : SName) (hq : isQuotedName s = true) (h1 : s.length = 1) :
    s = ['|'] := by
  cases s with
  | nil => simp at h1
  | cons c t =>
    have ht : t = [] := by
      have := h1
      simp only [List.length_cons] at this
      exact List.eq_nil_of_length_eq_zero (by omega)
    subst ht
    rw [isQuotedName] at hq
    simp at hq
    rw [hq]

theorem quoted_decomp (s : SName) (hq : isQuotedName s = true) (h2 : 2 ≤ s.length) :
    s = '|' :: ((s.drop 1).dropLast ++ ['|']) := by
  cases s with
  | nil => simp at h2
  | cons c t =>
    have htne : t ≠ [] := by
      intro h
      subst h
      simp at h2
    rw [isQuotedName] at hq
    simp only [List.head?_cons, Option.some.injEq, Bool.and_eq_true, decide_eq_true_eq] at hq
    obtain ⟨hc, hl⟩ := hq
    subst hc
    have hlt : ('|' :: t).getLast? = t.getLast? := by
      cases t with
      | nil => exact absurd rfl htne
      | cons u v => rfl
    rw [hlt, List.getLast?_eq_getLast t htne] at hl
    have hlast : t.getLast htne = '|' := by
      injection hl with h
    have hdecomp := List.dropLast_append_getLast htne
    rw [hlast] at hdecomp
    show '|' :: t = '|' :: (t.dropLast ++ ['|'])
    rw [hdecomp]

theorem nameMatches_qq (en qn : SName) (h1 : isQuotedName en = true)
    (h2 : isQuotedName qn = true) : nameMatches en qn = decide (en = qn) := by
  rw [nameMatches]
  simp [h1, h2]

theorem nameMatches_uu (en qn : SName) (h1 : isQuotedName en = false)
    (h2 : isQuotedName qn = false) : nameMatches en qn = decide (en = qn) := by
  rw [nameMatches]
  simp [h1, h2]

theorem nameMatches_qu (en qn : SName) (h1 : isQuotedName en = true)
    (h2 : isQuotedName qn = false) :
    nameMatches en qn
      = decide (subSizeT en.length 2 = qn.length
          ∧ (en.drop 1).take qn.length = qn.take qn.length) := by
  rw [nameMatches]
  simp only [h1, h2]
  rw [Bool.decide_and]
  simp

theorem nameMatches_uq (en qn : SName) (h1 : isQuotedName en = false)
    (h2 : isQuotedName qn = true) :
    nameMatches en qn
      = decide (subSizeT qn.length 2 = en.length
          ∧ en.take en.length = (qn.drop 1).take en.length) := by
  rw [nameMatches]
  simp only [h1, h2]
  rw [Bool.decide_and]
  simp

theorem nameMatches_quote (x : SName) (hx : x ≠ []) (hp : '|' ∉ x)
    (hb : NameOK x) (s : SName) (hs : NameOK s) :
    nameMatches s (quoteName x) = nameMatches s x := by
  have hqq := isQuotedName_quote x
  have hqx := isQuotedName_unquoted x hx hp
  cases hsq : isQuotedName s with
  | true =>
    rw [nameMatches_qq s (quoteName x) hsq hqq, nameMatches_qu s x hsq hqx,
      decide_eq_decide]
    constructor
    · intro hse
      subst hse
      constructor
      · rw [length_quote, subSizeT_of_ge_two _ (by omega) (by rw [NameOK] at hb; omega)]
        omega
      · show ((x ++ ['|']).take x.length) = _
        rw [List.take_left, List.take_length]
    · rintro ⟨hlen, htake⟩
      by_cases hone : s.length ≤ 1
      · have hs1 : s.length = 1 := by
          have hne : s ≠ [] := by
            intro h
            rw [h, isQuotedName] at hsq
            simp at hsq
          have := List.length_pos.mpr hne
          omega
        rw [hs1, subSizeT_one_two] at hlen
        rw [NameOK] at hb
        omega
      · push_neg at hone
        have hdecomp := quoted_decomp s hsq (by omega)
        have hmidlen : ((s.drop 1).dropLast).length = s.length - 2 := by
          rw [List.length_dropLast, List.length_drop]
          omega
        rw [subSizeT_of_ge_two _ (by omega) (by rw [NameOK] at hs; omega)] at hlen
        have hmid : (s.drop 1).take x.length = (s.drop 1).dropLast := by
          conv_lhs => rw [hdecomp]
          show ((s.drop 1).dropLast ++ ['|']).take x.length = _
          exact List.take_left' (by omega)
        rw [hmid, List.take_length] at htake
        rw [quoteName, hdecomp, htake]
  | false =>
    rw [nameMatches_uq s (quoteName x) hsq hqq, nameMatches_uu s x hsq hqx,
      decide_eq_decide]
    have hsub : subSizeT (quoteName x).length 2 = x.length := by
      rw [length_quote, subSizeT_of_ge_two _ (by omega) (by rw [NameOK] at hb; omega)]
      omega
    have hdrop : (quoteName x).drop 1 = x ++ ['|'] := rfl
    constructor
    · rintro ⟨hlen, htake⟩
      rw [hsub] at hlen
      rw [List.take_length, hdrop, ← hlen, List.take_left] at htake
      exact htake
    · intro hse
      subst hse
      refine ⟨hsub, ?_⟩
      rw [List.take_length, hdrop, List.take_left]

theorem find?_congr_mem {α : Type} (l : List α) (p q : α → Bool)
    (h : ∀ a ∈ l, p a = q a) : l.find? p = l.find? q := by
  induction l with
  | nil => rfl
  | cons x xs ih =>
    rw [List.find?_cons, List.find?_cons, h x (by simp)]
    cases q x with
    | true => rfl
    | false => exact ih (fun a ha => h a (by simp [ha]))

theorem getD_names_ok (T : Table) (h : Nat)
    (hT : ∀ b ∈ T.buckets, ∀ e ∈ b, NameOK e.name) :
    ∀ e ∈ T.buckets.getD h [], NameOK e.name := by
  intro e he
  rw [List.getD_eq_getElem?_getD] at he
  cases hg : T.buckets[h]? with
  | none =>
    rw [hg] at he
    simp at he
  | some b =>
    rw [hg] at he
    simp only [Option.getD_some] at he
    exact hT b (List.getElem?_mem hg) e he

/-- C7: the quoted and the unquoted spelling of a pipe-free name hash to
the same bucket and satisfy the same match predicate, so lookup returns
the same entry for both. -/
theorem c7_quote_equivalence (T : Table) (x : SName) (hx : x ≠ []) (hp : '|' ∉ x)
    (hb : NameOK x) (hT : ∀ b ∈ T.buckets, ∀ e ∈ b, NameOK e.name) :
    findSymbol T (quoteName x) = findSymbol T x := by
  have hhash : hashName (quoteName x) T.size = hashName x T.size := by
    rw [hashName, hashName, stripName_quote,
      stripName_unquoted x (isQuotedName_unquoted x hx hp)]
  rw [findSymbol, findSymbol, hhash]
  by_cases hsz : T.size = 0
  · rw [if_pos hsz, if_pos hsz]
  · rw [if_neg hsz, if_neg hsz]
    exact find?_congr_mem _ _ _
      (fun e he => nameMatches_quote x hx hp hb e.name
        (getD_names_ok T _ hT e he))

/-- C7 witness. -/
theorem c7_quote_equivalence_witness :
    (['x'] : SName) ≠ [] ∧ '|' ∉ (['x'] : SName) ∧ NameOK ['x']
    ∧ findSymbol { size := 1, buckets := [[⟨['x'], 0, 0⟩]], count := 1 }
        (quoteName ['x'])
      = findSymbol { size := 1, buckets := [[⟨['x'], 0, 0⟩]], count := 1 } ['x'] :=
  ⟨by decide, by decide, by norm_num [NameOK],
    c7_quote_equivalence _ ['x'] (by decide) (by decide) (by norm_num [NameOK])
      (by intro b hbk e he
          simp only [List.mem_singleton] at hbk
          subst hbk
          simp only [List.mem_singleton] at he
          subst he
          norm_num [NameOK])⟩

theorem getD_set_self (bs : List (List Entry)) (h : Nat) (x : List Entry)
    (hh : h < bs.length) : (bs.set h x).getD h [] = x := by
  rw [List.getD_eq_getElem?_getD, List.getElem?_set_eq_of_lt x hh]
  rfl

theorem getD_set_ne (bs : List (List Entry)) (h j : Nat) (x : List Entry)
    (hne : h ≠ j) : (bs.set h x).getD j [] = bs.getD j [] := by
  rw [List.getD_eq_getElem?_getD, List.getElem?_set_ne hne, ← List.getD_eq_getElem?_getD]

theorem getD_replicate (n j : Nat) :
    (List.replicate n ([] : List Entry)).getD j [] = [] := by
  rw [List.getD_eq_getElem?_getD, List.getElem?_replicate]
  split <;> rfl

theorem hashName_lt (n : SName) (k : Nat) : hashName n (2 ^ k) < 2 ^ k := by
  rw [hashName, Nat.and_pow_two_sub_one_eq_mod]
  exact Nat.mod_lt _ (Nat.pos_pow_of_pos k (by norm_num))

theorem hashName_mod_double (n : SName) (k : Nat) :
    hashName n (2 ^ k) = hashName n (2 ^ (k + 1)) % 2 ^ k := by
  rw [hashName, hashName, Nat.and_pow_two_sub_one_eq_mod, Nat.and_pow_two_sub_one_eq_mod,
    pow_succ]
  exact (Nat.mod_mod_of_dvd _ ⟨2, rfl⟩).symm

theorem rehash_foldl_length (nsz : Nat) (l : List Entry) :
    ∀ bs : List (List Entry), (l.foldl (rehashStep nsz) bs).length = bs.length := by
  induction l with
  | nil => intro bs; rfl
  | cons p ps ih =>
    intro bs
    rw [List.foldl_cons, ih]
    simp [rehashStep, prependBucket]

theorem rehash_chain_getD (nsz : Nat) (chain : List Entry) (bs : List (List Entry)) (j : Nat)
    (hh : ∀ p : Entry, hashName p.name nsz < bs.length) :
    (chain.reverse.foldl (rehashStep nsz) bs).getD j []
      = chain.filter (fun e => hashName e.name nsz = j) ++ bs.getD j [] := by
  rw [List.foldl_reverse]
  induction chain with
  | nil => rfl
  | cons p c ih =>
    rw [List.foldr_cons]
    have hXlen : (c.foldr (fun x y => rehashStep nsz y x) bs).length = bs.length := by
      rw [← List.foldl_reverse, rehash_foldl_length]
    rw [show rehashStep nsz (c.foldr (fun x y => rehashStep nsz y x) bs) p
        = (c.foldr (fun x y => rehashStep nsz y x) bs).set (hashName p.name nsz)
            (p :: (c.foldr (fun x y => rehashStep nsz y x) bs).getD
              (hashName p.name nsz) []) from rfl]
    by_cases hj : hashName p.name nsz = j
    · rw [hj, getD_set_self _ _ _ (by rw [hXlen]; exact hj ▸ hh p), ih, List.filter_cons]
      simp [hj]
    · rw [getD_set_ne _ _ _ _ hj, ih, List.filter_cons]
      simp [hj]

theorem fold_chains_length (nsz : Nat) (chains : List (List Entry)) :
    ∀ bs : List (List Entry),
      (chains.foldl (fun acc chain => chain.reverse.foldl (rehashStep nsz) acc) bs).length
        = bs.length := by
  induction chains with
  | nil => intro bs; rfl
  | cons c cs ih =>
    intro bs
    rw [List.foldl_cons, ih, rehash_foldl_length]

theorem fold_chains_getD (nsz : Nat) (chains : List (List Entry)) (j : Nat) :
    ∀ bs : List (List Entry), (∀ p : Entry, hashName p.name nsz < bs.length) →
      (chains.foldl (fun acc chain => chain.reverse.foldl (rehashStep nsz) acc) bs).getD j []
        = chains.foldl
            (fun accL chain => chain.filter (fun e => hashName e.name nsz = j) ++ accL)
            (bs.getD j []) := by
  induction chains with
  | nil => intro bs _; rfl
  | cons c cs ih =>
    intro bs hh
    rw [List.foldl_cons, List.foldl_cons]
    have hlen : (c.reverse.foldl (rehashStep nsz) bs).length = bs.length :=
      rehash_foldl_length nsz c.reverse bs
    rw [ih _ (fun p => by rw [hlen]; exact hh p)]
    rw [rehash_chain_getD nsz c bs j hh]

theorem fold_buckets_filter (L : List Entry) (q : Entry → Bool) (g : Entry → Nat) (i0 : Nat)
    (hq : ∀ e, q e = true → g e = i0) :
    ∀ n, ((List.range n).map (fun i => L.filter (fun e => g e = i))).foldl
        (fun a c => c.filter q ++ a) []
      = if i0 < n then L.filter q else [] := by
  intro n
  induction n with
  | zero => simp
  | succ m ih =>
    rw [List.range_succ, List.map_append, List.foldl_append, ih]
    show (L.filter (fun e => g e = m)).filter q ++ _ = _
    rw [List.filter_filter]
    by_cases him : i0 = m
    · subst him
      have hfe : L.filter (fun a => q a && decide (g a = i0)) = L.filter q := by
        apply List.filter_congr
        intro a _
        cases hqa : q a
        · simp
        · simp [hq a hqa]
      rw [hfe, if_neg (lt_irrefl i0), if_pos (Nat.lt_succ_self i0)]
      simp
    · have hfe : L.filter (fun a => q a && decide (g a = m)) = [] := by
        rw [List.filter_eq_nil_iff]
        intro a _
        cases hqa : q a
        · simp
        · simp only [hqa, Bool.true_and]
          simp [hq a hqa, him]
      rw [hfe]
      simp only [List.nil_append]
      have hiff : (i0 < m + 1) ↔ (i0 < m) := by omega
      rw [if_congr hiff rfl rfl]

theorem buckets_ext (L : List Entry) (T : Table) (hlen : T.buckets.length = T.size)
    (hbkt : ∀ j, j < T.size →
      T.buckets.getD j [] = L.filter (fun e => hashName e.name T.size = j)) :
    T.buckets
      = (List.range T.size).map (fun i => L.filter (fun e => hashName e.name T.size = i)) := by
  apply List.ext_getElem
  · rw [hlen]
    simp
  · intro i h1 h2
    have hi : i < T.size := by rw [← hlen]; exact h1
    have := hbkt i hi
    rw [List.getD_eq_getElem _ _ h1] at this
    rw [this]
    simp

theorem rep_enlarge (L : List Entry) (T : Table) (hrep : Rep L T) :
    Rep L (enlargeTable T) := by
  rcases hrep with ⟨hsz, hb, hc, hl⟩ | ⟨⟨k, hk⟩, hlen, hcnt, hbkt⟩
  · right
    subst hl
    have h1 : (enlargeTable T).size = 1 := by
      show (if T.size = 0 then 1 else 2 * T.size) = 1
      rw [if_pos hsz]
    have h2 : (enlargeTable T).buckets = [[]] := by
      show T.buckets.foldl _ (List.replicate (if T.size = 0 then 1 else 2 * T.size) []) = [[]]
      rw [hb, if_pos hsz]
      rfl
    have h3 : (enlargeTable T).count = 0 := hc
    refine ⟨⟨0, by rw [h1]; rfl⟩, by rw [h2, h1]; rfl, by rw [h3]; rfl, ?_⟩
    intro j hj
    rw [h1] at hj
    have hj0 : j = 0 := by omega
    subst hj0
    rw [h2]
    rfl
  · right
    have hpos : T.size ≠ 0 := by
      rw [hk]
      positivity
    have hnsz : (enlargeTable T).size = 2 ^ (k + 1) := by
      show (if T.size = 0 then 1 else 2 * T.size) = _
      rw [if_neg hpos, hk, pow_succ, Nat.mul_comm]
    refine ⟨⟨k + 1, hnsz⟩, ?_, ?_, ?_⟩
    · show (T.buckets.foldl _ (List.replicate _ [])).length = _
      rw [fold_chains_length, List.length_replicate]
      rfl
    · exact hcnt
    · intro j hj
      rw [hnsz] at hj
      have hnsz2 : (if T.size = 0 then 1 else 2 * T.size) = 2 ^ (k + 1) := by
        rw [if_neg hpos, hk, pow_succ, Nat.mul_comm]
      show (T.buckets.foldl _ (List.replicate (if T.size = 0 then 1 else 2 * T.size) [])).getD j []
        = L.filter (fun e => hashName e.name (enlargeTable T).size = j)
      rw [hnsz2, hnsz]
      rw [fold_chains_getD (2 ^ (k + 1)) T.buckets j (List.replicate (2 ^ (k + 1)) [])
        (fun p => by rw [List.length_replicate]; exact hashName_lt p.name (k + 1))]
      rw [getD_replicate]
      rw [buckets_ext L T hlen hbkt, hk]
      have hmod : j % 2 ^ k < 2 ^ k := Nat.mod_lt _ (Nat.pos_pow_of_pos k (by norm_num))
      have h2 := fold_buckets_filter L (fun e => decide (hashName e.name (2 ^ (k + 1)) = j))
        (fun e => hashName e.name (2 ^ k)) (j % 2 ^ k)
        (fun e he => by
          have hje : hashName e.name (2 ^ (k + 1)) = j := by
            simpa using he
          show hashName e.name (2 ^ k) = j % 2 ^ k
          rw [hashName_mod_double, hje])
        (2 ^ k)
      rw [if_pos hmod] at h2
      exact h2

theorem rep_insert (L : List Entry) (T : Table) (e : Entry) (hrep : Rep L T) :
    Rep (e :: L) (insertSymbol T e) := by
  rw [insertSymbol]
  have hrep2 : Rep L (if T.size ≤ T.count then enlargeTable T else T) := by
    split
    · exact rep_enlarge L T hrep
    · exact hrep
  have hsznz : (if T.size ≤ T.count then enlargeTable T else T).size ≠ 0 := by
    by_cases hcase : T.size ≤ T.count
    · rw [if_pos hcase]
      show (if T.size = 0 then 1 else 2 * T.size) ≠ 0
      split
      · omega
      · rename_i hne
        omega
    · rw [if_neg hcase]
      omega
  rcases hrep2 with ⟨hsz, _, _, _⟩ | ⟨⟨k, hk⟩, hlen, hcnt, hbkt⟩
  · exact absurd hsz hsznz
  right
  set T2 := if T.size ≤ T.count then enlargeTable T else T with hT2
  refine ⟨⟨k, hk⟩, ?_, ?_, ?_⟩
  · show (prependBucket T2.buckets (hashName e.name T2.size) e).length = T2.size
    rw [prependBucket, List.length_set, hlen]
  · show T2.count + 1 = (e :: L).length
    rw [hcnt, List.length_cons]
  · intro j hj
    have hjsz : j < T2.size := hj
    show (prependBucket T2.buckets (hashName e.name T2.size) e).getD j []
      = (e :: L).filter (fun x => hashName x.name T2.size = j)
    rw [prependBucket]
    by_cases hj2 : hashName e.name T2.size = j
    · rw [List.filter_cons]
      simp only [hj2, decide_True, if_true]
      rw [← hj2]
      rw [getD_set_self _ _ _ (by rw [hlen, hk]; exact hashName_lt e.name k)]
      rw [hbkt _ (by rw [hk]; exact hashName_lt e.name k), hj2]
    · rw [getD_set_ne _ _ _ _ hj2, hbkt j hjsz, List.filter_cons]
      simp [hj2]

theorem removeFirst_filter_pos (e : Entry) (p : Entry → Bool) (hp : p e = true) :
    ∀ l : List Entry, removeFirst (l.filter p) e = (removeFirst l e).filter p := by
  intro l
  induction l with
  | nil => rfl
  | cons x xs ih =>
    by_cases hx : x = e
    · subst hx
      rw [List.filter_cons]
      simp only [hp, if_true]
      rw [show removeFirst (x :: xs.filter p) x = xs.filter p from by
        rw [removeFirst]; simp]
      rw [show removeFirst (x :: xs) x = xs from by rw [removeFirst]; simp]
    · rw [List.filter_cons,
        show removeFirst (x :: xs) e = x :: removeFirst xs e from by
          rw [removeFirst]; simp [hx]]
      cases hpx : p x
      · simp only [Bool.false_eq_true, if_false]
        rw [ih, List.filter_cons]
        simp [hpx]
      · simp only [if_true]
        rw [show removeFirst (x :: xs.filter p) e = x :: removeFirst (xs.filter p) e from by
          rw [removeFirst]; simp [hx]]
        rw [ih, List.filter_cons]
        simp [hpx]

theorem removeFirst_filter_neg (e : Entry) (p : Entry → Bool) (hp : p e = false) :
    ∀ l : List Entry, (removeFirst l e).filter p = l.filter p := by
  intro l
  induction l with
  | nil => rfl
  | cons x xs ih =>
    by_cases hx : x = e
    · subst hx
      rw [show removeFirst (x :: xs) x = xs from by rw [removeFirst]; simp]
      rw [List.filter_cons]
      simp [hp]
    · rw [show removeFirst (x :: xs) e = x :: removeFirst xs e from by
        rw [removeFirst]; simp [hx]]
      rw [List.filter_cons, List.filter_cons, ih]

theorem removeFirst_length (e : Entry) :
    ∀ l : List Entry, e ∈ l → (removeFirst l e).length = l.length - 1 := by
  intro l
  induction l with
  | nil => intro h; cases h
  | cons x xs ih =>
    intro hmem
    by_cases hx : x = e
    · subst hx
      rw [show removeFirst (x :: xs) x = xs from by rw [removeFirst]; simp]
      simp
    · have hxs : e ∈ xs := by
        cases List.mem_cons.mp hmem with
        | inl h => exact absurd h.symm hx
        | inr h => exact h
      rw [show removeFirst (x :: xs) e = x :: removeFirst xs e from by
        rw [removeFirst]; simp [hx]]
      rw [List.length_cons, ih hxs, List.length_cons]
      have := List.length_pos.mpr (List.ne_nil_of_mem hxs)
      omega

theorem removeFirst_sublist (e : Entry) :
    ∀ l : List Entry, (removeFirst l e).Sublist l := by
  intro l
  induction l with
  | nil => exact List.Sublist.refl []
  | cons x xs ih =>
    by_cases hx : x = e
    · subst hx
      rw [show removeFirst (x :: xs) x = xs from by rw [removeFirst]; simp]
      exact List.sublist_cons_self x xs
    · rw [show removeFirst (x :: xs) e = x :: removeFirst xs e from by
        rw [removeFirst]; simp [hx]]
      exact List.Sublist.cons₂ x ih

theorem rep_remove (L : List Entry) (T : Table) (e : Entry) (hrep : Rep L T)
    (he : e ∈ L) : Rep (removeFirst L e) (removeSymbol T e) := by
  rcases hrep with ⟨_, _, _, hl⟩ | ⟨⟨k, hk⟩, hlen, hcnt, hbkt⟩
  · subst hl
    cases he
  right
  refine ⟨⟨k, hk⟩, ?_, ?_, ?_⟩
  · show (T.buckets.set _ _).length = T.size
    rw [List.length_set, hlen]
  · show T.count - 1 = (removeFirst L e).length
    rw [hcnt, removeFirst_length e L he]
  · intro j hj
    show (T.buckets.set (hashName e.name T.size)
        (removeFirst (T.buckets.getD (hashName e.name T.size) []) e)).getD j []
      = (removeFirst L e).filter (fun x => hashName x.name T.size = j)
    by_cases hj2 : hashName e.name T.size = j
    · rw [← hj2]
      rw [getD_set_self _ _ _ (by rw [hlen, hk]; exact hashName_lt e.name k)]
      rw [hbkt _ (by rw [hk]; exact hashName_lt e.name k)]
      exact removeFirst_filter_pos e _ (by simp [hj2]) L
    · rw [getD_set_ne _ _ _ _ hj2, hbkt j hj]
      exact (removeFirst_filter_neg e _ (by simp [hj2]) L).symm

theorem sum_map_add_nat (f g : Nat → Nat) :
    ∀ l : List Nat, (l.map (fun i => f i + g i)).sum = (l.map f).sum + (l.map g).sum := by
  intro l
  induction l with
  | nil => rfl
  | cons x xs ih =>
    simp only [List.map_cons, List.sum_cons, ih]
    omega

theorem sum_map_zero_of (f : Nat → Nat) :
    ∀ l : List Nat, (∀ i ∈ l, f i = 0) → (l.map f).sum = 0 := by
  intro l
  induction l with
  | nil => intro _; rfl
  | cons x xs ih =>
    intro h
    simp only [List.map_cons, List.sum_cons]
    rw [h x (by simp), ih (fun i hi => h i (by simp [hi]))]

theorem sum_map_indicator (c x : Nat) :
    ∀ l : List Nat, l.Nodup → x ∈ l →
      (l.map (fun i => if x = i then c else 0)).sum = c := by
  intro l
  induction l with
  | nil => intro _ h; cases h
  | cons y ys ih =>
    intro hnd hmem
    simp only [List.map_cons, List.sum_cons]
    by_cases hxy : x = y
    · subst hxy
      rw [if_pos rfl]
      have hnot : x ∉ ys := (List.nodup_cons.mp hnd).1
      rw [sum_map_zero_of _ ys (fun i hi => by
        by_cases hxi : x = i
        · exact absurd (hxi ▸ hi) hnot
        · simp [hxi])]
      omega
    · rw [if_neg hxy]
      have hmem2 : x ∈ ys := by
        cases List.mem_cons.mp hmem with
        | inl h => exact absurd h hxy
        | inr h => exact h
      rw [ih (List.nodup_cons.mp hnd).2 hmem2]
      omega

theorem partition_count (q : Entry → Bool) (g : Entry → Nat) (n : Nat) :
    ∀ L : List Entry, (∀ e ∈ L, g e < n) →
      ((List.range n).map
          (fun i => ((L.filter (fun e => g e = i)).filter q).length)).sum
        = (L.filter q).length := by
  intro L
  induction L with
  | nil =>
    intro _
    simp
  | cons x xs ih =>
    intro hg
    have hx : g x < n := hg x (by simp)
    have hxs : ∀ e ∈ xs, g e < n := fun e he => hg e (by simp [he])
    have hsplit : ∀ i, (((x :: xs).filter (fun e => g e = i)).filter q).length
        = (if g x = i then (if q x then 1 else 0) else 0)
          + ((xs.filter (fun e => g e = i)).filter q).length := by
      intro i
      rw [List.filter_cons]
      by_cases h1 : g x = i
      · simp only [h1, decide_True, if_true]
        rw [List.filter_cons]
        cases hqx : q x
        · simp
        · simp
          omega
      · simp [h1]
    rw [List.map_congr_left (fun i _ => hsplit i), sum_map_add_nat]
    rw [ih hxs]
    have hind : ((List.range n).map (fun i => if g x = i then (if q x then 1 else 0) else 0)).sum
        = (if q x then 1 else 0) := by
      exact sum_map_indicator _ (g x) (List.range n) (List.nodup_range n)
        (List.mem_range.mpr hx)
    rw [hind, List.filter_cons]
    cases hqx : q x
    · simp
    · simp
      omega

theorem filter_length_compl (p : Entry → Bool) :
    ∀ l : List Entry, (l.filter p).length + (l.filter (fun a => !(p a))).length = l.length := by
  intro l
  induction l with
  | nil => rfl
  | cons x xs ih =>
    rw [List.filter_cons, List.filter_cons]
    cases hp : p x
    · simp only [Bool.false_eq_true, if_false, Bool.not_false, if_true, List.length_cons]
      omega
    · simp only [if_true, Bool.not_true, Bool.false_eq_true, if_false, List.length_cons]
      omega

theorem getD_map_buckets (f : List Entry → List Entry) (bs : List (List Entry)) (j : Nat)
    (hj : j < bs.length) : (bs.map f).getD j [] = f (bs.getD j []) := by
  rw [List.getD_eq_getElem _ _ (by rw [List.length_map]; exact hj),
    List.getD_eq_getElem _ _ hj]
  simp

theorem rep_close (L : List Entry) (T : Table) (lvl : Nat) (hrep : Rep L T) :
    Rep (L.filter (fun e => e.scope_level ≠ lvl)) (closeScopeTable lvl T) := by
  rcases hrep with ⟨hsz, hb, hc, hl⟩ | ⟨⟨k, hk⟩, hlen, hcnt, hbkt⟩
  · left
    subst hl
    refine ⟨hsz, ?_, ?_, rfl⟩
    · show T.buckets.map _ = []
      rw [hb]
      rfl
    · show T.count - scopeCount lvl T = 0
      omega
  right
  refine ⟨⟨k, hk⟩, ?_, ?_, ?_⟩
  · show (T.buckets.map _).length = T.size
    rw [List.length_map, hlen]
  · show T.count - scopeCount lvl T = (L.filter (fun e => e.scope_level ≠ lvl)).length
    have hsc : scopeCount lvl T = (L.filter (fun e => e.scope_level = lvl)).length := by
      rw [scopeCount, buckets_ext L T hlen hbkt, List.map_map]
      have := partition_count (fun e => decide (e.scope_level = lvl))
        (fun e => hashName e.name T.size) T.size L
        (fun e _ => by rw [hk]; exact hashName_lt e.name k)
      rw [← this]
      rfl
    rw [hcnt, hsc]
    have hcompl := filter_length_compl (fun e => decide (e.scope_level = lvl)) L
    have hfe : L.filter (fun a => !(decide (a.scope_level = lvl)))
        = L.filter (fun e => decide (e.scope_level ≠ lvl)) := by
      apply List.filter_congr
      intro a _
      simp
    rw [hfe] at hcompl
    omega
  · intro j hj
    show (T.buckets.map (closeScopeBucket lvl)).getD j []
      = (L.filter (fun e => e.scope_level ≠ lvl)).filter (fun x => hashName x.name T.size = j)
    rw [getD_map_buckets _ _ _ (by rw [hlen]; exact hj), hbkt j hj, closeScopeBucket]
    rw [List.filter_filter, List.filter_filter]
    apply List.filter_congr
    intro a _
    rw [Bool.and_comm]

theorem match_strip (en qn : SName) (hen : NameOK en) (hqn : NameOK qn)
    (hm : nameMatches en qn = true) : stripName en = stripName qn := by
  cases heq : isQuotedName en <;> cases hqq : isQuotedName qn
  · rw [nameMatches_uu en qn heq hqq] at hm
    rw [decide_eq_true_eq.mp hm]
  · rw [nameMatches_uq en qn heq hqq] at hm
    obtain ⟨hlen2, htake⟩ := decide_eq_true_eq.mp hm
    by_cases hone : qn.length ≤ 1
    · have hq1 : qn.length = 1 := by
        have hne : qn ≠ [] := by
          intro h
          rw [h, isQuotedName] at hqq
          simp at hqq
        have := List.length_pos.mpr hne
        omega
      rw [hq1, subSizeT_one_two] at hlen2
      rw [NameOK] at hen
      omega
    · push_neg at hone
      rw [subSizeT_of_ge_two _ (by omega) (by rw [NameOK] at hqn; omega)] at hlen2
      simp only [List.take_length] at htake
      rw [stripName_unquoted en heq, stripName, if_pos hqq, List.dropLast_eq_take,
        List.length_drop]
      have h1 : qn.length - 1 - 1 = en.length := by omega
      rw [h1, ← htake]
  · rw [nameMatches_qu en qn heq hqq] at hm
    obtain ⟨hlen2, htake⟩ := decide_eq_true_eq.mp hm
    by_cases hone : en.length ≤ 1
    · have he1 : en.length = 1 := by
        have hne : en ≠ [] := by
          intro h
          rw [h, isQuotedName] at heq
          simp at heq
        have := List.length_pos.mpr hne
        omega
      rw [he1, subSizeT_one_two] at hlen2
      rw [NameOK] at hqn
      omega
    · push_neg at hone
      rw [subSizeT_of_ge_two _ (by omega) (by rw [NameOK] at hen; omega)] at hlen2
      simp only [List.take_length] at htake
      rw [stripName, if_pos heq, stripName_unquoted qn hqq, List.dropLast_eq_take,
        List.length_drop]
      have h1 : en.length - 1 - 1 = qn.length := by omega
      rw [h1, htake]
  · rw [nameMatches_qq en qn heq hqq] at hm
    rw [decide_eq_true_eq.mp hm]

theorem find?_filter_of_imp (p f : Entry → Bool) :
    ∀ l : List Entry, (∀ x ∈ l, p x = true → f x = true) →
      (l.filter f).find? p = l.find? p := by
  intro l
  induction l with
  | nil => intro _; rfl
  | cons x xs ih =>
    intro himp
    rw [List.filter_cons]
    cases hfx : f x
    · have hpx : p x = false := by
        cases hpx : p x
        · rfl
        · exact absurd (himp x (by simp) hpx) (by simp [hfx])
      simp only [Bool.false_eq_true, if_false]
      rw [ih (fun y hy hp2 => himp y (by simp [hy]) hp2)]
      rw [List.find?_cons, hpx]
    · simp only [if_true]
      rw [List.find?_cons, List.find?_cons]
      cases hpx : p x
      · exact ih (fun y hy hp2 => himp y (by simp [hy]) hp2)
      · rfl

theorem matches_same_hash (en qn : SName) (sz : Nat) (hen : NameOK en) (hqn : NameOK qn)
    (hm : nameMatches en qn = true) : hashName en sz = hashName qn sz := by
  rw [hashName, hashName, match_strip en qn hen hqn hm]

theorem find_rep (L : List Entry) (T : Table) (qn : SName) (hrep : Rep L T)
    (hL : ∀ e ∈ L, NameOK e.name) (hq : NameOK qn) :
    findSymbol T qn = L.find? (fun e => nameMatches e.name qn) := by
  rcases hrep with ⟨hsz, _, _, hl⟩ | ⟨⟨k, hk⟩, hlen, hcnt, hbkt⟩
  · subst hl
    rw [findSymbol, if_pos hsz]
    rfl
  · have hpos : T.size ≠ 0 := by
      rw [hk]
      positivity
    rw [findSymbol, if_neg hpos]
    rw [hbkt (hashName qn T.size) (by rw [hk]; exact hashName_lt qn k)]
    exact find?_filter_of_imp _ _ L
      (fun x hx hm => by
        simp only [decide_eq_true_eq]
        exact matches_same_hash x.name qn T.size (hL x hx) hq hm)

theorem find?_eq_head?_filter (p : Entry → Bool) :
    ∀ l : List Entry, l.find? p = (l.filter p).head? := by
  intro l
  induction l with
  | nil => rfl
  | cons x xs ih =>
    rw [List.find?_cons, List.filter_cons]
    cases hpx : p x
    · simp only [Bool.false_eq_true, if_false]
      exact ih
    · rfl

/-! ## The state invariant and its preservation -/

theorem iterateN_open_fields (n : Nat) : ∀ st : PState,
    (iterateN openNewScope n st).live = st.live
    ∧ (iterateN openNewScope n st).table = st.table
    ∧ (iterateN openNewScope n st).nextId = st.nextId
    ∧ (iterateN openNewScope n st).global_declarations = st.global_declarations
    ∧ (iterateN openNewScope n st).backend = st.backend
    ∧ (iterateN openNewScope n st).scope_level = st.scope_level + n := by
  induction n with
  | zero =>
    intro st
    exact ⟨rfl, rfl, rfl, rfl, rfl, rfl⟩
  | succ m ih =>
    intro st
    obtain ⟨h1, h2, h3, h4, h5, h6⟩ := ih (openNewScope st)
    refine ⟨h1, h2, h3, h4, h5, ?_⟩
    rw [iterateN, h6]
    show st.scope_level + 1 + m = _
    omega

theorem iterateN_close_global (n : Nat) : ∀ st : PState,
    (iterateN closeCurrentScope n st).global_declarations = st.global_declarations := by
  induction n with
  | zero => intro st; rfl
  | succ m ih =>
    intro st
    rw [iterateN, ih (closeCurrentScope st)]
    rw [closeCurrentScope]
    split <;> rfl

theorem iterateN_close_nextId (n : Nat) : ∀ st : PState,
    (iterateN closeCurrentScope n st).nextId = st.nextId := by
  induction n with
  | zero => intro st; rfl
  | succ m ih =>
    intro st
    rw [iterateN, ih (closeCurrentScope st)]
    rw [closeCurrentScope]
    split <;> rfl

theorem iterateN_close_backend (n : Nat) : ∀ st : PState,
    (iterateN closeCurrentScope n st).backend = st.backend := by
  induction n with
  | zero => intro st; rfl
  | succ m ih =>
    intro st
    rw [iterateN, ih (closeCurrentScope st)]
    rw [closeCurrentScope]
    split <;> rfl

theorem runAct_global (st st2 : PState) (a : Act) (h : runAct st a = .ok st2) :
    st2.global_declarations = st.global_declarations := by
  cases a with
  | ins name =>
    rw [runAct] at h
    injection h with h2
    rw [← h2]
  | del i =>
    rw [runAct] at h
    cases hf : st.live.find? (fun e => e.id = i) with
    | none => rw [hf] at h; cases h
    | some e =>
      rw [hf] at h
      injection h with h2
      rw [← h2]
  | push n =>
    rw [runAct] at h
    injection h with h2
    rw [← h2]
    show (iterateN openNewScope n st).global_declarations = _
    exact (iterateN_open_fields n st).2.2.2.1
  | pop n =>
    rw [runAct, popCmd] at h
    by_cases hlev : n > st.scope_level
    · rw [if_pos hlev] at h
      cases h
    · rw [if_neg hlev] at h
      injection h with h2
      rw [← h2]
      show (iterateN closeCurrentScope n st).global_declarations = _
      exact iterateN_close_global n st

theorem close_inv (st : PState) (hg : st.global_declarations = false)
    (hrep : Rep st.live st.table)
    (hpw : st.live.Pairwise (fun a b => a.id ≠ b.id))
    (hid : ∀ e ∈ st.live, e.id < st.nextId)
    (hlev : ∀ e ∈ st.live, e.scope_level ≤ st.scope_level)
    (hnm : ∀ e ∈ st.live, NameOK e.name) :
    Rep (closeCurrentScope st).live (closeCurrentScope st).table
    ∧ (closeCurrentScope st).live.Pairwise (fun a b => a.id ≠ b.id)
    ∧ (∀ e ∈ (closeCurrentScope st).live, e.id < (closeCurrentScope st).nextId)
    ∧ (∀ e ∈ (closeCurrentScope st).live,
        e.scope_level ≤ (closeCurrentScope st).scope_level)
    ∧ (∀ e ∈ (closeCurrentScope st).live, NameOK e.name) := by
  rw [closeCurrentScope, hg]
  simp only [Bool.false_eq_true, if_false]
  refine ⟨rep_close _ _ _ hrep, ?_, ?_, ?_, ?_⟩
  · exact hpw.sublist (List.filter_sublist st.live)
  · intro e he
    exact hid e ((List.filter_sublist st.live).mem he)
  · intro e he
    have hmem := (List.filter_sublist st.live).mem he
    have hne : e.scope_level ≠ st.scope_level := by
      have := List.of_mem_filter he
      simpa using this
    have := hlev e hmem
    show e.scope_level ≤ st.scope_level - 1
    omega
  · intro e he
    exact hnm e ((List.filter_sublist st.live).mem he)

theorem inv_runAct (st st2 : PState) (a : Act) (hInv : Inv st) (hok : ActOK a)
    (hg : st.global_declarations = false) (h : runAct st a = .ok st2) : Inv st2 := by
  obtain ⟨hrep, hpw, hid, hlev, hnm⟩ := hInv
  cases a with
  | ins name =>
    rw [runAct] at h
    injection h with h2
    subst h2
    refine ⟨rep_insert _ _ _ hrep, ?_, ?_, ?_, ?_⟩
    · refine List.Pairwise.cons (fun b hb => ?_) hpw
      show st.nextId ≠ b.id
      have := hid b hb
      omega
    · intro e he
      show e.id < st.nextId + 1
      cases List.mem_cons.mp he with
      | inl h3 =>
        subst h3
        show st.nextId < st.nextId + 1
        omega
      | inr h3 =>
        have := hid e h3
        omega
    · intro e he
      show e.scope_level ≤ st.scope_level
      cases List.mem_cons.mp he with
      | inl h3 =>
        subst h3
        exact le_refl _
      | inr h3 => exact hlev e h3
    · intro e he
      cases List.mem_cons.mp he with
      | inl h3 =>
        subst h3
        exact hok
      | inr h3 => exact hnm e h3
  | del i =>
    rw [runAct] at h
    cases hf : st.live.find? (fun e => e.id = i) with
    | none => rw [hf] at h; cases h
    | some e =>
      rw [hf] at h
      injection h with h2
      subst h2
      have hmem : e ∈ st.live := List.mem_of_find?_eq_some hf
      refine ⟨rep_remove _ _ _ hrep hmem, ?_, ?_, ?_, ?_⟩
      · exact hpw.sublist (removeFirst_sublist e st.live)
      · intro x hx
        exact hid x ((removeFirst_sublist e st.live).mem hx)
      · intro x hx
        exact hlev x ((removeFirst_sublist e st.live).mem hx)
      · intro x hx
        exact hnm x ((removeFirst_sublist e st.live).mem hx)
  | push n =>
    rw [runAct] at h
    injection h with h2
    subst h2
    obtain ⟨hb, hc, hd, _, _, hsc⟩ := iterateN_open_fields n st
    refine ⟨?_, ?_, ?_, ?_, ?_⟩
    · show Rep (iterateN openNewScope n st).live (iterateN openNewScope n st).table
      rw [hb, hc]
      exact hrep
    · show (iterateN openNewScope n st).live.Pairwise _
      rw [hb]
      exact hpw
    · intro e he
      show e.id < (iterateN openNewScope n st).nextId
      rw [hd]
      rw [show (pushCmd n st).live = (iterateN openNewScope n st).live from rfl, hb] at he
      exact hid e he
    · intro e he
      show e.scope_level ≤ (iterateN openNewScope n st).scope_level
      rw [hsc]
      rw [show (pushCmd n st).live = (iterateN openNewScope n st).live from rfl, hb] at he
      have := hlev e he
      omega
    · intro e he
      rw [show (pushCmd n st).live = (iterateN openNewScope n st).live from rfl, hb] at he
      exact hnm e he
  | pop n =>
    rw [runAct, popCmd] at h
    by_cases hlev2 : n > st.scope_level
    · rw [if_pos hlev2] at h
      cases h
    · rw [if_neg hlev2] at h
      injection h with h2
      subst h2
      have key : ∀ (m : Nat) (s : PState), s.global_declarations = false →
          Rep s.live s.table → s.live.Pairwise (fun a b => a.id ≠ b.id) →
          (∀ e ∈ s.live, e.id < s.nextId) →
          (∀ e ∈ s.live, e.scope_level ≤ s.scope_level) →
          (∀ e ∈ s.live, NameOK e.name) →
          Rep (iterateN closeCurrentScope m s).live (iterateN closeCurrentScope m s).table
          ∧ (iterateN closeCurrentScope m s).live.Pairwise (fun a b => a.id ≠ b.id)
          ∧ (∀ e ∈ (iterateN closeCurrentScope m s).live,
              e.id < (iterateN closeCurrentScope m s).nextId)
          ∧ (∀ e ∈ (iterateN closeCurrentScope m s).live,
              e.scope_level ≤ (iterateN closeCurrentScope m s).scope_level)
          ∧ (∀ e ∈ (iterateN closeCurrentScope m s).live, NameOK e.name) := by
        intro m
        induction m with
        | zero =>
          intro s _ h1 h2 h3 h4 h5
          exact ⟨h1, h2, h3, h4, h5⟩
        | succ j ih =>
          intro s hgs h1 h2 h3 h4 h5
          obtain ⟨k1, k2, k3, k4, k5⟩ := close_inv s hgs h1 h2 h3 h4 h5
          have hgs2 : (closeCurrentScope s).global_declarations = false := by
            rw [closeCurrentScope]
            split <;> exact hgs
          exact ih (closeCurrentScope s) hgs2 k1 k2 k3 k4 k5
      obtain ⟨k1, k2, k3, k4, k5⟩ := key n st hg hrep hpw hid hlev hnm
      exact ⟨k1, k2, k3, k4, k5⟩

theorem inv_runActs (acts : List Act) :
    ∀ st st2 : PState, Inv st → (∀ a ∈ acts, ActOK a) →
      st.global_declarations = false → runActs acts st = .ok st2 →
      Inv st2 ∧ st2.global_declarations = false := by
  induction acts with
  | nil =>
    intro st st2 hInv _ hg h
    rw [runActs] at h
    injection h with h2
    subst h2
    exact ⟨hInv, hg⟩
  | cons a rest ih =>
    intro st st2 hInv hok hg h
    rw [runActs] at h
    cases hstep : runAct st a with
    | error e => rw [hstep] at h; cases h
    | ok st1 =>
      rw [hstep] at h
      have hg1 : st1.global_declarations = false := by
        rw [runAct_global st st1 a hstep]
        exact hg
      exact ih st1 st2 (inv_runAct st st1 a hInv (hok a (by simp)) hg hstep)
        (fun b hb => hok b (by simp [hb])) hg1 h

theorem inv_init : Inv initState := by
  refine ⟨Or.inl ⟨rfl, rfl, rfl, rfl⟩, List.Pairwise.nil, ?_, ?_, ?_⟩ <;>
    · intro e he
      cases he

/-! ## C2: innermost-shadow lookup -/

theorem iterateN_close_live_sublist (n : Nat) : ∀ st : PState,
    (iterateN closeCurrentScope n st).live.Sublist st.live := by
  induction n with
  | zero => intro st; exact List.Sublist.refl _
  | succ m ih =>
    intro st
    refine (ih (closeCurrentScope st)).trans ?_
    rw [closeCurrentScope]
    split
    · exact List.Sublist.refl _
    · exact List.filter_sublist st.live

theorem level_pairwise_runAct (st st2 : PState) (a : Act)
    (hlev : ∀ e ∈ st.live, e.scope_level ≤ st.scope_level)
    (hpw : st.live.Pairwise (fun x y => y.scope_level ≤ x.scope_level))
    (h : runAct st a = .ok st2) :
    st2.live.Pairwise (fun x y => y.scope_level ≤ x.scope_level) := by
  cases a with
  | ins name =>
    rw [runAct] at h
    injection h with h2
    subst h2
    exact List.Pairwise.cons (fun b hb => hlev b hb) hpw
  | del i =>
    rw [runAct] at h
    cases hf : st.live.find? (fun e => e.id = i) with
    | none => rw [hf] at h; cases h
    | some e =>
      rw [hf] at h
      injection h with h2
      subst h2
      exact hpw.sublist (removeFirst_sublist e st.live)
  | push n =>
    rw [runAct] at h
    injection h with h2
    subst h2
    show (iterateN openNewScope n st).live.Pairwise _
    rw [(iterateN_open_fields n st).1]
    exact hpw
  | pop n =>
    rw [runAct, popCmd] at h
    by_cases hc : n > st.scope_level
    · rw [if_pos hc] at h
      cases h
    · rw [if_neg hc] at h
      injection h with h2
      subst h2
      show (iterateN closeCurrentScope n st).live.Pairwise _
      exact hpw.sublist (iterateN_close_live_sublist n st)

theorem level_pairwise_runActs (acts : List Act) :
    ∀ st st2 : PState, Inv st → (∀ a ∈ acts, ActOK a) →
      st.global_declarations = false →
      st.live.Pairwise (fun x y => y.scope_level ≤ x.scope_level) →
      runActs acts st = .ok st2 →
      st2.live.Pairwise (fun x y => y.scope_level ≤ x.scope_level) := by
  induction acts with
  | nil =>
    intro st st2 _ _ _ hpw h
    rw [runActs] at h
    injection h with h2
    subst h2
    exact hpw
  | cons a rest ih =>
    intro st st2 hInv hok hg hpw h
    rw [runActs] at h
    cases hstep : runAct st a with
    | error e => rw [hstep] at h; cases h
    | ok st1 =>
      rw [hstep] at h
      have hInv1 := inv_runAct st st1 a hInv (hok a (by simp)) hg hstep
      have hg1 : st1.global_declarations = false := by
        rw [runAct_global st st1 a hstep]
        exact hg
      exact ih st1 st2 hInv1 (fun b hb => hok b (by simp [hb])) hg1
        (level_pairwise_runAct st st1 a hInv.2.2.2.1 hpw hstep) h

theorem find?_max_level (p : Entry → Bool) :
    ∀ l : List Entry, l.Pairwise (fun x y => y.scope_level ≤ x.scope_level) →
      ∀ e, l.find? p = some e → ∀ x ∈ l, p x = true →
        x.scope_level ≤ e.scope_level := by
  intro l
  induction l with
  | nil =>
    intro _ e he
    cases he
  | cons y ys ih =>
    intro hpw e he x hx hpx
    cases hpy : p y with
    | false =>
      rw [List.find?_cons_of_neg _ (by simp [hpy])] at he
      cases List.mem_cons.mp hx with
      | inl h3 =>
        subst h3
        rw [hpx] at hpy
        cases hpy
      | inr h3 => exact ih (List.pairwise_cons.mp hpw).2 e he x h3 hpx
    | true =>
      rw [List.find?_cons_of_pos _ hpy] at he
      injection he with he2
      subst he2
      cases List.mem_cons.mp hx with
      | inl h3 =>
        subst h3
        exact le_refl _
      | inr h3 => exact (List.pairwise_cons.mp hpw).1 x h3

/-- C2: after any sequence of parser actions from the initial state
(inserts of realistic names, removes by identity, push, pop) that
succeeds, find_symbol_smt2 on the resulting table returns exactly the
first matching entry of the most-recent-first live list — the most
recently inserted live entry with that name — and that entry has the
greatest scope_level among all live entries matching the name; this
holds through the table doublings that the inserts trigger. -/
theorem c2_find_innermost (acts : List Act) (st : PState)
    (hrun : runActs acts initState = .ok st)
    (hok : ∀ a ∈ acts, ActOK a)
    (qn : SName) (hq : NameOK qn) :
    findSymbol st.table qn = st.live.find? (fun e => nameMatches e.name qn)
    ∧ ∀ e, st.live.find? (fun e => nameMatches e.name qn) = some e →
        ∀ x ∈ st.live, nameMatches x.name qn = true →
          x.scope_level ≤ e.scope_level := by
  obtain ⟨hInv, hg⟩ := inv_runActs acts initState st inv_init hok rfl hrun
  obtain ⟨hrep, hpwid, hid, hlev, hnm⟩ := hInv
  refine ⟨find_rep st.live st.table qn hrep hnm hq, ?_⟩
  have hpw := level_pairwise_runActs acts initState st inv_init hok rfl
    List.Pairwise.nil hrun
  intro e he x hx hpx
  exact find?_max_level _ st.live hpw e he x hx hpx

theorem c2_find_innermost_witness :
    findSymbol (Table.mk 2 [[Entry.mk ['x'] 1 1, Entry.mk ['x'] 0 0], []] 2) ['x']
      = List.find? (fun e => nameMatches e.name ['x'])
          [Entry.mk ['x'] 1 1, Entry.mk ['x'] 0 0]
    ∧ ∀ e, List.find? (fun e => nameMatches e.name ['x'])
          [Entry.mk ['x'] 1 1, Entry.mk ['x'] 0 0] = some e →
        ∀ x ∈ [Entry.mk ['x'] 1 1, Entry.mk ['x'] 0 0],
          nameMatches x.name ['x'] = true → x.scope_level ≤ e.scope_level :=
  c2_find_innermost [Act.ins ['x'], Act.push 1, Act.ins ['x']]
    (PState.mk 1 false (Table.mk 2 [[Entry.mk ['x'] 1 1, Entry.mk ['x'] 0 0], []] 2)
      [Entry.mk ['x'] 1 1, Entry.mk ['x'] 0 0] 2 1)
    rfl
    (by
      intro a ha
      simp only [List.mem_cons, List.not_mem_nil, or_false] at ha
      rcases ha with rfl | rfl | rfl
      · show NameOK ['x']
        norm_num [NameOK]
      · trivial
      · show NameOK ['x']
        norm_num [NameOK])
    ['x'] (by norm_num [NameOK])

/-! ## C1: push/pop scope symmetry -/

theorem close_fields_nonglobal (st : PState) (hg : st.global_declarations = false) :
    (closeCurrentScope st).scope_level = st.scope_level - 1
    ∧ (closeCurrentScope st).global_declarations = false
    ∧ (closeCurrentScope st).backend = st.backend := by
  refine ⟨?_, ?_, ?_⟩
  · rw [closeCurrentScope, hg, if_neg Bool.false_ne_true]
  · rw [closeCurrentScope, hg, if_neg Bool.false_ne_true]
  · rw [closeCurrentScope, hg, if_neg Bool.false_ne_true]

theorem close_live_decomp (st : PState) (L0 Lnew : List Entry)
    (hg : st.global_declarations = false) (hdec : st.live = Lnew ++ L0)
    (hL0 : ∀ e ∈ L0, e.scope_level ≠ st.scope_level) :
    (closeCurrentScope st).live
      = Lnew.filter (fun e => e.scope_level ≠ st.scope_level) ++ L0 := by
  rw [closeCurrentScope, hg]
  simp only [Bool.false_eq_true, if_false]
  show st.live.filter (fun e => e.scope_level ≠ st.scope_level) = _
  rw [hdec, List.filter_append]
  congr 1
  exact List.filter_eq_self.mpr (fun e he => by simpa using hL0 e he)

theorem removeFirst_append_left (e : Entry) :
    ∀ (l1 l2 : List Entry), e ∈ l1 →
      removeFirst (l1 ++ l2) e = removeFirst l1 e ++ l2 := by
  intro l1
  induction l1 with
  | nil =>
    intro l2 h
    cases h
  | cons x xs ih =>
    intro l2 h
    rw [List.cons_append, removeFirst, removeFirst]
    by_cases hx : x = e
    · rw [if_pos hx, if_pos hx]
    · rw [if_neg hx, if_neg hx, List.cons_append]
      congr 1
      refine ih l2 ?_
      cases List.mem_cons.mp h with
      | inl h3 => exact absurd h3.symm hx
      | inr h3 => exact h3

theorem iterateN_close_window (n : Nat) : ∀ (st : PState) (L0 Lnew : List Entry),
    st.global_declarations = false → n ≤ st.scope_level →
    st.live = Lnew ++ L0 →
    (∀ e ∈ L0, e.scope_level ≤ st.scope_level - n) →
    (iterateN closeCurrentScope n st).scope_level = st.scope_level - n
    ∧ (iterateN closeCurrentScope n st).global_declarations = false
    ∧ ∃ Lnew2, (iterateN closeCurrentScope n st).live = Lnew2 ++ L0
        ∧ Lnew2.Sublist Lnew := by
  induction n with
  | zero =>
    intro st L0 Lnew hg _ hdec _
    exact ⟨rfl, hg, Lnew, hdec, List.Sublist.refl _⟩
  | succ m ih =>
    intro st L0 Lnew hg hn hdec hL0
    obtain ⟨hcl, hcg, _⟩ := close_fields_nonglobal st hg
    have hclive := close_live_decomp st L0 Lnew hg hdec
      (fun e he => by have := hL0 e he; omega)
    obtain ⟨h1, h2, Lnew2, h3, h4⟩ := ih (closeCurrentScope st) L0
      (Lnew.filter (fun e => e.scope_level ≠ st.scope_level)) hcg
      (by rw [hcl]; omega) hclive
      (by
        rw [hcl]
        intro e he
        have := hL0 e he
        omega)
    refine ⟨?_, h2, Lnew2, h3, h4.trans (List.filter_sublist Lnew)⟩
    have h9 : (iterateN closeCurrentScope (m + 1) st).scope_level
        = (closeCurrentScope st).scope_level - m := h1
    rw [hcl] at h9
    rw [h9]
    omega

theorem winv_runAct (base : Nat) (L0 : List Entry) (st st2 : PState) (a : Act)
    (hg : st.global_declarations = false)
    (hL0 : ∀ e ∈ L0, e.scope_level ≤ base)
    (hw : WInv base L0 st)
    (hcond : match a with
      | .pop n => base + 1 ≤ st.scope_level - n
      | .del i => ∀ e ∈ st.live, e.id = i → base < e.scope_level
      | _ => True)
    (h : runAct st a = .ok st2) : WInv base L0 st2 := by
  obtain ⟨⟨Lnew, hdec, hnew⟩, hble⟩ := hw
  cases a with
  | ins name =>
    rw [runAct] at h
    injection h with h2
    subst h2
    refine ⟨⟨Entry.mk name st.scope_level st.nextId :: Lnew, ?_, ?_⟩, hble⟩
    · show Entry.mk name st.scope_level st.nextId :: st.live = _
      rw [hdec, List.cons_append]
    · intro e he
      cases List.mem_cons.mp he with
      | inl h3 =>
        subst h3
        show base < st.scope_level
        omega
      | inr h3 => exact hnew e h3
  | del i =>
    rw [runAct] at h
    cases hf : st.live.find? (fun e => e.id = i) with
    | none =>
      rw [hf] at h
      cases h
    | some e =>
      rw [hf] at h
      injection h with h2
      subst h2
      have hmem : e ∈ st.live := List.mem_of_find?_eq_some hf
      have hei : e.id = i := by
        have hp := List.find?_some hf
        simpa using hp
      have hbe : base < e.scope_level := hcond e hmem hei
      have heLnew : e ∈ Lnew := by
        rw [hdec] at hmem
        cases List.mem_append.mp hmem with
        | inl h3 => exact h3
        | inr h3 => exact absurd (hL0 e h3) (by omega)
      refine ⟨⟨removeFirst Lnew e, ?_, ?_⟩, hble⟩
      · show removeFirst st.live e = _
        rw [hdec, removeFirst_append_left e Lnew L0 heLnew]
      · intro x hx
        exact hnew x ((removeFirst_sublist e Lnew).mem hx)
  | push n =>
    rw [runAct] at h
    injection h with h2
    subst h2
    obtain ⟨hli, _, _, _, _, hsc⟩ := iterateN_open_fields n st
    refine ⟨⟨Lnew, ?_, hnew⟩, ?_⟩
    · show (iterateN openNewScope n st).live = _
      rw [hli, hdec]
    · show base + 1 ≤ (iterateN openNewScope n st).scope_level
      rw [hsc]
      omega
  | pop n =>
    rw [runAct, popCmd] at h
    by_cases hc : n > st.scope_level
    · rw [if_pos hc] at h
      cases h
    · rw [if_neg hc] at h
      injection h with h2
      subst h2
      have hn : n ≤ st.scope_level := by omega
      obtain ⟨h1, _, Lnew2, h3, h4⟩ := iterateN_close_window n st L0 Lnew hg hn hdec
        (fun e he => by have := hL0 e he; omega)
      refine ⟨⟨Lnew2, ?_, fun e he => hnew e (h4.mem he)⟩, ?_⟩
      · show (iterateN closeCurrentScope n st).live = _
        exact h3
      · show base + 1 ≤ (iterateN closeCurrentScope n st).scope_level
        rw [h1]
        exact hcond

theorem winv_runActs (acts : List Act) :
    ∀ (base : Nat) (L0 : List Entry) (st st2 : PState),
      Inv st → st.global_declarations = false → (∀ a ∈ acts, ActOK a) →
      (∀ e ∈ L0, e.scope_level ≤ base) →
      WInv base L0 st → WindowOK base acts st →
      runActs acts st = .ok st2 → WInv base L0 st2 := by
  induction acts with
  | nil =>
    intro base L0 st st2 _ _ _ _ hw _ h
    rw [runActs] at h
    injection h with h2
    subst h2
    exact hw
  | cons a rest ih =>
    intro base L0 st st2 hInv hg hok hL0 hw hwin h
    rw [runActs] at h
    cases hstep : runAct st a with
    | error e =>
      rw [hstep] at h
      cases h
    | ok st1 =>
      rw [hstep] at h
      have hg1 : st1.global_declarations = false := by
        rw [runAct_global st st1 a hstep]
        exact hg
      exact ih base L0 st1 st2
        (inv_runAct st st1 a hInv (hok a (by simp)) hg hstep)
        hg1 (fun b hb => hok b (by simp [hb])) hL0
        (winv_runAct base L0 st st1 a hg hL0 hw hwin.1 hstep)
        (hwin.2 st1 hstep) h

theorem iterateN_close_strip (N : Nat) : ∀ (st : PState) (L0 Lnew : List Entry),
    st.global_declarations = false →
    st.live = Lnew ++ L0 →
    (∀ e ∈ Lnew, st.scope_level - N < e.scope_level) →
    (∀ e ∈ st.live, e.scope_level ≤ st.scope_level) →
    (∀ e ∈ L0, e.scope_level ≤ st.scope_level - N) →
    Rep st.live st.table →
    N ≤ st.scope_level →
    (iterateN closeCurrentScope N st).live = L0
    ∧ (iterateN closeCurrentScope N st).scope_level = st.scope_level - N
    ∧ Rep L0 (iterateN closeCurrentScope N st).table
    ∧ (iterateN closeCurrentScope N st).backend = st.backend := by
  induction N with
  | zero =>
    intro st L0 Lnew hg hdec hnew hlev hL0 hrep _
    have hLnil : Lnew = [] := by
      cases hLc : Lnew with
      | nil => rfl
      | cons x xs =>
        subst hLc
        have hx : x ∈ st.live := by
          rw [hdec]
          simp
        have h1 := hnew x (by simp)
        have h2 := hlev x hx
        omega
    subst hLnil
    rw [List.nil_append] at hdec
    exact ⟨hdec, rfl, hdec ▸ hrep, rfl⟩
  | succ M ih =>
    intro st L0 Lnew hg hdec hnew hlev hL0 hrep hN
    obtain ⟨hcl, hcg, hcb⟩ := close_fields_nonglobal st hg
    have hclive := close_live_decomp st L0 Lnew hg hdec
      (fun e he => by have := hL0 e he; omega)
    have hcrep : Rep (closeCurrentScope st).live (closeCurrentScope st).table := by
      rw [closeCurrentScope, hg]
      simp only [Bool.false_eq_true, if_false]
      exact rep_close st.live st.table st.scope_level hrep
    obtain ⟨k1, k2, k3, k4⟩ := ih (closeCurrentScope st) L0
      (Lnew.filter (fun e => e.scope_level ≠ st.scope_level)) hcg hclive
      (fun e he => by
        have h5 := hnew e ((List.filter_sublist Lnew).mem he)
        rw [hcl]
        omega)
      (fun e he => by
        rw [hcl]
        rw [hclive] at he
        cases List.mem_append.mp he with
        | inl h5 =>
          have h6 : e.scope_level ≠ st.scope_level := by
            simpa using List.of_mem_filter h5
          have h7 := hlev e (by
            rw [hdec]
            exact List.mem_append.mpr (Or.inl ((List.filter_sublist Lnew).mem h5)))
          omega
        | inr h5 =>
          have := hL0 e h5
          omega)
      (fun e he => by
        rw [hcl]
        have := hL0 e he
        omega)
      hcrep
      (by rw [hcl]; omega)
    refine ⟨k1, ?_, k3, ?_⟩
    · have h9 : (iterateN closeCurrentScope (M + 1) st).scope_level
          = (closeCurrentScope st).scope_level - M := k2
      rw [hcl] at h9
      rw [h9]
      omega
    · have h9 : (iterateN closeCurrentScope (M + 1) st).backend
          = (closeCurrentScope st).backend := k4
      rw [hcb] at h9
      exact h9

theorem iterateN_close_global_fields (n : Nat) : ∀ st : PState,
    st.global_declarations = true →
    (iterateN closeCurrentScope n st).live = st.live
    ∧ (iterateN closeCurrentScope n st).table = st.table
    ∧ (iterateN closeCurrentScope n st).scope_level = st.scope_level - n
    ∧ (iterateN closeCurrentScope n st).backend = st.backend := by
  induction n with
  | zero =>
    intro st _
    exact ⟨rfl, rfl, rfl, rfl⟩
  | succ m ih =>
    intro st hg
    have hcg : (closeCurrentScope st).global_declarations = true := by
      rw [closeCurrentScope, hg, if_pos rfl]
    have hclive : (closeCurrentScope st).live = st.live := by
      rw [closeCurrentScope, hg, if_pos rfl]
    have hct : (closeCurrentScope st).table = st.table := by
      rw [closeCurrentScope, hg, if_pos rfl]
    have hcl : (closeCurrentScope st).scope_level = st.scope_level - 1 := by
      rw [closeCurrentScope, hg, if_pos rfl]
    have hcb : (closeCurrentScope st).backend = st.backend := by
      rw [closeCurrentScope, hg, if_pos rfl]
    obtain ⟨h1, h2, h3, h4⟩ := ih (closeCurrentScope st) hcg
    refine ⟨?_, ?_, ?_, ?_⟩
    · have h9 : (iterateN closeCurrentScope (m + 1) st).live
          = (closeCurrentScope st).live := h1
      rw [hclive] at h9
      exact h9
    · have h9 : (iterateN closeCurrentScope (m + 1) st).table
          = (closeCurrentScope st).table := h2
      rw [hct] at h9
      exact h9
    · have h9 : (iterateN closeCurrentScope (m + 1) st).scope_level
          = (closeCurrentScope st).scope_level - m := h3
      rw [hcl] at h9
      rw [h9]
      omega
    · have h9 : (iterateN closeCurrentScope (m + 1) st).backend
          = (closeCurrentScope st).backend := h4
      rw [hcb] at h9
      exact h9

/-- C1: scope symmetry of push and pop.  From any invariant-satisfying
state with the global-declarations flag unset, after `push N` and any
well-nested window of successful actions returning to level base + N,
`pop N` succeeds and restores exactly the pre-push symbol table: the
live entries are again exactly the pre-push ones (every entry of the
popped levels has been removed, re-exposing shadowed outer entries),
the scope level is back to the base, the backend assertion stack is
popped N times, and every lookup returns what it returned before the
push.  With the global-declarations flag set, pop keeps the table and
live entries and only pops the backend assertion stack.  Popping more
scopes than are open is an error. -/
theorem c1_push_pop_symmetry (N : Nat) (st0 st2 : PState) (acts : List Act)
    (hInv : Inv st0) (hg : st0.global_declarations = false)
    (hN : 1 ≤ N)
    (hok : ∀ a ∈ acts, ActOK a)
    (hwin : WindowOK st0.scope_level acts (pushCmd N st0))
    (hrun : runActs acts (pushCmd N st0) = .ok st2)
    (hlev2 : st2.scope_level = st0.scope_level + N) :
    (∃ st3, popCmd N st2 = .ok st3
      ∧ st3.live = st0.live
      ∧ st3.scope_level = st0.scope_level
      ∧ st3.backend = st2.backend - N
      ∧ ∀ qn, NameOK qn → findSymbol st3.table qn = findSymbol st0.table qn)
    ∧ (∀ M, M > st2.scope_level →
        popCmd M st2 = .error ("popping more scopes (" ++ toString M
          ++ ") than created via push (" ++ toString st2.scope_level ++ ")"))
    ∧ (∀ stg : PState, stg.global_declarations = true →
        ∀ M, ¬ M > stg.scope_level →
          ∃ st4, popCmd M stg = .ok st4
            ∧ st4.live = stg.live ∧ st4.table = stg.table
            ∧ st4.scope_level = stg.scope_level - M
            ∧ st4.backend = stg.backend - M) := by
  have hpush : runAct st0 (.push N) = .ok (pushCmd N st0) := rfl
  have hInv1 : Inv (pushCmd N st0) :=
    inv_runAct st0 (pushCmd N st0) (.push N) hInv trivial hg hpush
  have hg1 : (pushCmd N st0).global_declarations = false := by
    rw [runAct_global st0 (pushCmd N st0) (.push N) hpush]
    exact hg
  obtain ⟨hli, _, _, _, _, hsc⟩ := iterateN_open_fields N st0
  have hplive : (pushCmd N st0).live = st0.live := hli
  have hpsc : (pushCmd N st0).scope_level = st0.scope_level + N := hsc
  obtain ⟨hInv2, hg2⟩ := inv_runActs acts (pushCmd N st0) st2 hInv1 hok hg1 hrun
  have hL0 : ∀ e ∈ st0.live, e.scope_level ≤ st0.scope_level := hInv.2.2.2.1
  have hw1 : WInv st0.scope_level st0.live (pushCmd N st0) := by
    refine ⟨⟨[], ?_, ?_⟩, ?_⟩
    · rw [List.nil_append]
      exact hplive
    · intro e he
      cases he
    · rw [hpsc]
      omega
  have hw2 := winv_runActs acts st0.scope_level st0.live (pushCmd N st0) st2
    hInv1 hg1 hok hL0 hw1 hwin hrun
  obtain ⟨⟨Lnew, hdec, hnewb⟩, hble⟩ := hw2
  have hnotgt : ¬ N > st2.scope_level := by
    rw [hlev2]
    omega
  refine ⟨?_, ?_, ?_⟩
  · obtain ⟨hrep2, _, _, hlev2v, _⟩ := hInv2
    obtain ⟨k1, k2, k3, k4⟩ := iterateN_close_strip N st2 st0.live Lnew hg2 hdec
      (fun e he => by
        have := hnewb e he
        rw [hlev2]
        omega)
      hlev2v
      (fun e he => by
        have := hL0 e he
        rw [hlev2]
        omega)
      hrep2
      (by rw [hlev2]; omega)
    refine ⟨{ iterateN closeCurrentScope N st2 with
        backend := (iterateN closeCurrentScope N st2).backend - N }, ?_, k1, ?_, ?_, ?_⟩
    · rw [popCmd, if_neg hnotgt]
    · show (iterateN closeCurrentScope N st2).scope_level = st0.scope_level
      rw [k2, hlev2]
      omega
    · show (iterateN closeCurrentScope N st2).backend - N = st2.backend - N
      rw [k4]
    · intro qn hq
      show findSymbol (iterateN closeCurrentScope N st2).table qn = findSymbol st0.table qn
      rw [find_rep st0.live (iterateN closeCurrentScope N st2).table qn k3
        hInv.2.2.2.2 hq, find_rep st0.live st0.table qn hInv.1 hInv.2.2.2.2 hq]
  · intro M hM
    rw [popCmd, if_pos hM]
  · intro stg hgt M hMle
    obtain ⟨g1, g2, g3, g4⟩ := iterateN_close_global_fields M stg hgt
    refine ⟨{ iterateN closeCurrentScope M stg with
        backend := (iterateN closeCurrentScope M stg).backend - M }, ?_, g1, g2, g3, ?_⟩
    · rw [popCmd, if_neg hMle]
    · show (iterateN closeCurrentScope M stg).backend - M = stg.backend - M
      rw [g4]

theorem c1_push_pop_symmetry_witness :
    ((∃ st3, popCmd 1 (pushCmd 1 initState) = .ok st3
      ∧ st3.live = initState.live
      ∧ st3.scope_level = initState.scope_level
      ∧ st3.backend = (pushCmd 1 initState).backend - 1
      ∧ ∀ qn, NameOK qn → findSymbol st3.table qn = findSymbol initState.table qn)
    ∧ (∀ M, M > (pushCmd 1 initState).scope_level →
        popCmd M (pushCmd 1 initState) = .error ("popping more scopes ("
          ++ toString M ++ ") than created via push ("
          ++ toString (pushCmd 1 initState).scope_level ++ ")"))
    ∧ (∀ stg : PState, stg.global_declarations = true →
        ∀ M, ¬ M > stg.scope_level →
          ∃ st4, popCmd M stg = .ok st4
            ∧ st4.live = stg.live ∧ st4.table = stg.table
            ∧ st4.scope_level = stg.scope_level - M
            ∧ st4.backend = stg.backend - M)) :=
  c1_push_pop_symmetry 1 initState (pushCmd 1 initState) [] inv_init rfl
    (Nat.le_refl 1) (by simp) trivial rfl rfl

end BzlaSMT2
